import Mathlib

/-!
Verification of witr: target resolution, origin classification and descendant trees.

A shallow embedding of the decision logic of the `witr` sources
(`internal/platform`, `internal/target`, `internal/source`, `internal/proc`)
together with theorems about it.

Conventions of the embedding.

* A Go `string` is a list of characters (`Str`); the texts handled by the
  program are taken to be valid UTF-8, one `Char` per rune.
* A Go `int` is an `Int`; `strconv.Atoi` enforces the 64-bit range.
* Everything the program reads from the operating system (directory listings,
  file contents, output of external commands, its own PID) is an explicit
  argument. A read that fails is `none`.
* A Go `map` used as a set is a duplicate-free list of keys; its iteration
  order, which Go leaves unspecified, is an explicit argument wherever the
  program ranges over the map.
* `os.Exit` and a run-time panic are explicit outcomes.
* The case table `unicode.ToLower` of the Go library is an argument `lower` of
  every function that lower-cases a text; the general theorems hold for every
  such table.
-/

namespace Witr

set_option maxRecDepth 100000
set_option autoImplicit false

/-- Go strings, as lists of runes. -/
abbrev Str := List Char

/-! ## The `strings`, `strconv` and `fmt` functions the sources call -/

namespace strings

/-- The runes `unicode.IsSpace` accepts (Unicode White_Space). -/
def isSpace (c : Char) : Bool :=
  let n := c.toNat
  (9 ≤ n && n ≤ 13) || n == 32 || n == 133 || n == 160 || n == 5760 ||
  (8192 ≤ n && n ≤ 8202) || n == 8232 || n == 8233 || n == 8239 || n == 8287 || n == 12288

/-- The function `strings.ToLower`: every rune is replaced by its image under
`unicode.ToLower`. That table of the Go library is the argument `lower`, so what is proved
holds whatever the table maps a rune to. -/
def ToLower (lower : Char → Char) (s : Str) : Str := s.map lower

/-- The function `strings.HasPrefix`. -/
def HasPrefix : Str → Str → Bool
  | _, [] => true
  | [], _ :: _ => false
  | c :: s, d :: p => c == d && HasPrefix s p

/-- The function `strings.HasSuffix`. -/
def HasSuffix (s suffix : Str) : Bool := HasPrefix s.reverse suffix.reverse

/-- The function `strings.Contains`: `substr` occurs in `s` as a contiguous block. -/
def Contains : Str → Str → Bool
  | [], substr => substr.isEmpty
  | c :: s, substr => HasPrefix (c :: s) substr || Contains s substr

/-- The function `strings.TrimSpace`: leading and trailing white space removed. -/
def TrimSpace (s : Str) : Str :=
  ((s.dropWhile isSpace).reverse.dropWhile isSpace).reverse

/-- The function `strings.TrimPrefix`. -/
def TrimPrefix (s pre : Str) : Str :=
  if HasPrefix s pre then s.drop pre.length else s

/-- The function `strings.TrimSuffix`. -/
def TrimSuffix (s suffix : Str) : Str :=
  if HasSuffix s suffix then s.take (s.length - suffix.length) else s

/-- Worker of `Fields`: `cur` is the field being read. -/
def fieldsAux : Str → Str → List Str
  | cur, [] => if cur.isEmpty then [] else [cur]
  | cur, c :: s =>
    if isSpace c then
      if cur.isEmpty then fieldsAux [] s else cur :: fieldsAux [] s
    else fieldsAux (cur ++ [c]) s

/-- The function `strings.Fields`: the maximal blocks of non-space runes. -/
def Fields (s : Str) : List Str := fieldsAux [] s

/-- Worker of `Split`: `cur` is the piece being read. -/
def splitAux (sep : Char) : Str → Str → List Str
  | cur, [] => [cur]
  | cur, c :: s => if c == sep then cur :: splitAux sep [] s else splitAux sep (cur ++ [c]) s

/-- The function `strings.Split` for a one-rune separator (every call in the sources passes
`"\n"`, `":"` or `"/"`). The result always has at least one piece. -/
def Split (s : Str) (sep : Char) : List Str := splitAux sep [] s

/-- The function `strings.Join` for a one-rune separator. -/
def Join (parts : List Str) (sep : Char) : Str :=
  match parts with
  | [] => []
  | [p] => p
  | p :: q :: rest => p ++ sep :: Join (q :: rest) sep

/-- The function `strings.ReplaceAll` for one-rune arguments. -/
def ReplaceAll (s : Str) (old new : Char) : Str :=
  s.map (fun c => if c == old then new else c)

end strings

namespace strconv

/-- Decimal value of a block of digits read left to right; `none` when a rune is not `0`-`9`. -/
def parseDigits : Nat → Str → Option Nat
  | acc, [] => some acc
  | acc, c :: s =>
    if c.isDigit then parseDigits (acc * 10 + (c.toNat - 48)) s else none

/-- An unsigned decimal numeral: at least one rune, all of them digits. -/
def parseUnsigned (s : Str) : Option Nat :=
  if s.isEmpty then none else parseDigits 0 s

/-- The function `strconv.Atoi` on a 64-bit platform: an optional `+` or `-`, then one or more
decimal digits, the value within the range of `int`; anything else is an error (`none`). -/
def Atoi (s : Str) : Option Int :=
  match s with
  | '-' :: rest =>
    match parseUnsigned rest with
    | some n => if n ≤ 2 ^ 63 then some (-(n : Int)) else none
    | none => none
  | '+' :: rest =>
    match parseUnsigned rest with
    | some n => if n < 2 ^ 63 then some (n : Int) else none
    | none => none
  | _ =>
    match parseUnsigned s with
    | some n => if n < 2 ^ 63 then some (n : Int) else none
    | none => none

/-- The function `strconv.Itoa` (also the verb `%d` of `fmt`). -/
def Itoa (n : Int) : Str :=
  match n with
  | Int.ofNat m => Nat.toDigits 10 m
  | Int.negSucc m => '-' :: Nat.toDigits 10 (m + 1)

end strconv

namespace fmt

/-- Left padding with `0` up to `width` runes. -/
def zeroPad (width : Nat) (digits : Str) : Str :=
  List.replicate (width - digits.length) '0' ++ digits

/-- The call `fmt.Sprintf("%04X", n)`: upper-case hexadecimal, zero padded to four runes, the
sign of a negative number taking one of the four places. -/
def Sprintf04X (n : Int) : Str :=
  match n with
  | Int.ofNat m => zeroPad 4 ((Nat.toDigits 16 m).map Char.toUpper)
  | Int.negSucc m => '-' :: zeroPad 3 ((Nat.toDigits 16 (m + 1)).map Char.toUpper)

end fmt

/-! ## Data model (`pkg/model`) -/

/-- The fields of `model.Process` that the decision logic reads. -/
structure Process where
  PID : Int
  PPID : Int
  Command : Str
  Cmdline : Str
  Service : Str
  deriving DecidableEq, Repr

/-- The errors the functions below return, one constructor per `fmt.Errorf` message. -/
inductive Err where
  /-- Message `invalid pid`. -/
  | invalidPid
  /-- Message `invalid port`. -/
  | invalidPort
  /-- Message `unknown target`. -/
  | unknownTarget
  /-- Message `no process listening on port %d`. -/
  | noListener (port : Int)
  /-- Message `socket found but owning process not detected`. -/
  | ownerNotDetected
  /-- Message `no running process or service named %q`. -/
  | noSuchName (name : Str)
  /-- Message `service %q not running`. -/
  | serviceNotRunning (svcName : Str)
  /-- An external command or a system read failed; the text is the collaborator's. -/
  | external (what : Str)
  deriving DecidableEq, Repr

deriving instance DecidableEq for Except

/-- What a call that may end the program yields: a value, an error, or `os.Exit(code)` after
the lines of `stdout` were printed. -/
inductive Outcome (α : Type) where
  | ok (value : α)
  | error (e : Err)
  | exit (code : Int) (stdout : List Str)
  deriving DecidableEq, Repr

/-! ## `internal/platform/linux.go` -/

namespace Linux

/-- One entry of the directory `/proc` as the program sees it. -/
structure ProcEntry where
  /-- Name of the entry (`e.Name()`). -/
  name : Str
  /-- Content of `/proc/<name>/comm`, `none` when the read fails. -/
  comm : Option Str
  /-- Content of `/proc/<name>/cmdline`, `none` when the read fails. -/
  cmdline : Option Str
  /-- Entries of `/proc/<name>/fd` (`none` when the directory cannot be read), each with the
  target of its link (`none` when `Readlink` fails). -/
  fds : Option (List (Option Str))
  deriving DecidableEq, Repr

/-- What the Linux platform reads from the system during one query. -/
structure Host where
  /-- Result of `os.ReadDir("/proc")`; a failed read leaves no entries. -/
  procDir : List ProcEntry
  /-- Content of `/proc/net/tcp`. -/
  netTcp : Option Str
  /-- Content of `/proc/net/tcp6`. -/
  netTcp6 : Option Str
  /-- Value of `os.Getpid()`. -/
  selfPid : Int
  /-- Value of `os.Getppid()`. -/
  parentPid : Int
  /-- Output of `systemctl show <svcName> -p MainPID --value`, `none` when the command fails. -/
  systemctlMainPID : Str → Option Str

/-- The cmdline test of the process scan of `ResolveName` (lines 188-196). -/
def scanCmdline (lower : Char → Char) (lowerName : Str) (pid : Int) (cmdline : Option Str) :
    Option Int :=
  match cmdline with
  | some raw =>
    let cmd := strings.ReplaceAll raw '\x00' ' '
    if strings.Contains (strings.ToLower lower cmd) lowerName &&
        !strings.Contains (strings.ToLower lower cmd) "grep".toList &&
        !strings.Contains (strings.ToLower lower cmd) "witr".toList then some pid
    else none
  | none => none

/-- One turn of the loop over `/proc` in `ResolveName` (lines 162-197): the PID the turn appends
to `procPIDs`, if any. -/
def scanEntry (lower : Char → Char) (lowerName : Str) (selfPid parentPid : Int)
    (e : ProcEntry) : Option Int :=
  match strconv.Atoi e.name with
  | none => none
  | some pid =>
    if lowerName = strconv.Itoa pid then none
    else if pid = selfPid ∨ pid = parentPid then none
    else
      match e.comm with
      | some comm =>
        if strings.Contains (strings.ToLower lower (strings.TrimSpace comm)) lowerName then
          if !strings.Contains (strings.ToLower lower comm) "grep".toList then some pid else none
        else scanCmdline lower lowerName pid e.cmdline
      | none => scanCmdline lower lowerName pid e.cmdline

/-- The list `procPIDs` at the end of the scan. -/
def scanProcesses (lower : Char → Char) (h : Host) (name : Str) : List Int :=
  h.procDir.filterMap (scanEntry lower (strings.ToLower lower name) h.selfPid h.parentPid)

/-- The function `resolveSystemdServiceMainPID`. On an error the Go function returns the PID 0
along with it. -/
def resolveSystemdServiceMainPID (h : Host) (name : Str) : Except Err Int :=
  let svcName := if strings.HasSuffix name ".service".toList then name else name ++ ".service".toList
  match h.systemctlMainPID svcName with
  | none => .error (.external "systemctl".toList)
  | some out =>
    match strconv.Atoi (strings.TrimSpace out) with
    | none => .error (.serviceNotRunning svcName)
    | some pid => if pid = 0 then .error (.serviceNotRunning svcName) else .ok pid

/-- The keys of the map `uniquePIDs` (lines 203-209). -/
def uniquePIDs (servicePID : Int) (procPIDs : List Int) : List Int :=
  ((if servicePID > 0 then [servicePID] else []) ++ procPIDs).dedup

/-- The lines printed for the manual candidates (lines 218-225), numbered from `idx`. -/
def manualLines (name : Str) (servicePID : Int) : Nat → List Int → List Str
  | _, [] => []
  | idx, pid :: rest =>
    if pid = servicePID then manualLines name servicePID idx rest
    else ("[".toList ++ Nat.toDigits 10 idx ++ "] PID ".toList ++ strconv.Itoa pid ++ "   ".toList ++
            name ++ ": worker process   (manual)".toList) ::
          manualLines name servicePID (idx + 1) rest

/-- The text printed before the ambiguous exit (lines 212-229), line by line. -/
def ambiguousReport (name : Str) (servicePID : Int) (procPIDs : List Int) : List Str :=
  ["Ambiguous target: \"".toList ++ name ++ "\"".toList, [],
   "The name matches multiple entities:".toList, []] ++
  (if servicePID > 0 then
    ["[1] PID ".toList ++ strconv.Itoa servicePID ++ "   ".toList ++ name ++
      ": master process   (service)".toList]
   else []) ++
  manualLines name servicePID 2 procPIDs ++
  [[], "witr cannot determine intent safely.".toList,
   "Please re-run with an explicit PID:".toList, "  witr --pid <pid>".toList]

/-- The part of `ResolveName` after the two lookups (lines 202-241). -/
def resolveCandidates (name : Str) (procPIDs : List Int) (servicePID : Int) :
    Outcome (List Int) :=
  if (uniquePIDs servicePID procPIDs).length > 1 then
    .exit 1 (ambiguousReport name servicePID procPIDs)
  else if servicePID > 0 then .ok [servicePID]
  else if procPIDs.length > 0 then .ok procPIDs
  else .error (.noSuchName name)

/-- The value of `servicePID` in `ResolveName` (line 200): the error of the lookup is
discarded, the PID returned along with an error is 0. -/
def servicePID (h : Host) (name : Str) : Int :=
  match resolveSystemdServiceMainPID h name with
  | .ok pid => pid
  | .error _ => 0

/-- The method `linuxPlatform.ResolveName`. -/
def ResolveName (lower : Char → Char) (h : Host) (name : Str) : Outcome (List Int) :=
  resolveCandidates name (scanProcesses lower h name) (servicePID h name)

end Linux

namespace Linux

/-- One turn of the loop over the lines of a socket table in `findSocketInodes`
(lines 129-144): the inode the turn records, if any. `fields[1]` and `fields[9]` exist once
`len(fields) < 10` has been excluded. -/
def socketLine (targetHex : Str) (line : Str) : Option Str :=
  let fields := strings.Fields line
  if fields.length < 10 then none
  else
    let localAddr := fields.getD 1 []
    let parts := strings.Split localAddr ':'
    if parts.length ≠ 2 then none
    else if parts.getD 1 [] = targetHex then some (fields.getD 9 []) else none

/-- The inodes one socket table contributes: nothing when the file cannot be read, else the
inodes of the lines after the header line (`lines[1:]`). -/
def tableInodes (targetHex : Str) (data : Option Str) : List Str :=
  match data with
  | none => []
  | some d => ((strings.Split d '\n').drop 1).filterMap (socketLine targetHex)

/-- The function `findSocketInodes`: the key set of the map `inodes`. -/
def findSocketInodes (h : Host) (port : Int) : Except Err (List Str) :=
  let targetHex := fmt.Sprintf04X port
  let inodes := (tableInodes targetHex h.netTcp ++ tableInodes targetHex h.netTcp6).dedup
  if inodes.length = 0 then .error (.noListener port) else .ok inodes

/-- The test of one file descriptor in `ResolvePort` (lines 88-100): its link is a socket
whose inode is in `inodes`. -/
def holdsSocket (inodes : List Str) (link : Option Str) : Bool :=
  match link with
  | none => false
  | some l =>
    if strings.HasPrefix l "socket:[".toList then
      inodes.contains (strings.TrimSuffix (strings.TrimPrefix l "socket:[".toList) "]".toList)
    else false

/-- One turn of the loop over `/proc` in `ResolvePort` (lines 76-101): the PID the turn puts
into `pidSet`, if any. -/
def ownerEntry (inodes : List Str) (e : ProcEntry) : Option Int :=
  match strconv.Atoi e.name with
  | none => none
  | some pid =>
    match e.fds with
    | none => none
    | some fds => if fds.any (holdsSocket inodes) then some pid else none

/-- The key set of the map `pidSet`. -/
def pidSet (h : Host) (inodes : List Str) : List Int :=
  (h.procDir.filterMap (ownerEntry inodes)).dedup

/-- The loop of lines 104-109 over the keys of `pidSet`, taken in the order `keys`: the final
value of `minPID`. -/
def lowestPID (keys : List Int) : Int :=
  keys.foldl (fun minPID pid => if minPID = 0 ∨ pid < minPID then pid else minPID) 0

/-- Lines 103-114 of `ResolvePort`: the answer computed from the keys of `pidSet` in the order
the loop meets them. -/
def selectListener (keys : List Int) : Except Err (List Int) :=
  let minPID := lowestPID keys
  if minPID > 0 then .ok [minPID] else .error .ownerNotDetected

/-- The method `linuxPlatform.ResolvePort`. `mapOrder` is the order in which the run time
ranges over a map with the given keys. -/
def ResolvePort (h : Host) (mapOrder : List Int → List Int) (port : Int) : Except Err (List Int) :=
  match findSocketInodes h port with
  | .error e => .error e
  | .ok inodes => selectListener (mapOrder (pidSet h inodes))

end Linux

/-! ## `internal/platform/darwin.go` -/

namespace Darwin

/-- What the macOS platform reads from the system during one query. -/
structure Host where
  /-- Output of `launchctl list`, `none` when the command fails. -/
  launchctlList : Option Str
  /-- Output of `ps -axo pid=,comm=,args=`; the error of the command is discarded. -/
  psAll : Str
  /-- Output of `lsof -i :<port> -t`, `none` when the command fails. -/
  lsofPort : Int → Option Str
  /-- Value of `os.Getpid()`. -/
  selfPid : Int
  /-- Value of `os.Getppid()`. -/
  parentPid : Int

/-- The function `sort.Ints`. -/
def sortInts (pids : List Int) : List Int := pids.insertionSort (fun a b => a ≤ b)

/-- Lines 243-250 of `ResolvePort`: the PIDs read from the output of `lsof`. -/
def parsePIDs (out : Str) : List Int :=
  (strings.Split (strings.TrimSpace out) '\n').filterMap
    (fun line => strconv.Atoi (strings.TrimSpace line))

/-- Lines 252-258 of `ResolvePort`: the answer computed from the PIDs `lsof` reported. The
element `pids[0]` exists since `len(pids) == 0` has been excluded. -/
def selectListener (port : Int) (pids : List Int) : Except Err (List Int) :=
  if pids.length = 0 then .error (.noListener port)
  else
    match sortInts pids with
    | first :: _ => .ok [first]
    | [] => .error (.noListener port)

/-- The method `darwinPlatform.ResolvePort`. -/
def ResolvePort (h : Host) (port : Int) : Except Err (List Int) :=
  match h.lsofPort port with
  | none => .error (.noListener port)
  | some out => selectListener port (parsePIDs out)

/-- The loop of `resolveLaunchdService` over the lines of `launchctl list`. -/
def launchdLines (lower : Char → Char) (lowerName : Str) : List Str → Int
  | [] => 0
  | line :: rest =>
    match strings.Fields line with
    | pidField :: _ :: labelField :: _ =>
      if strings.Contains (strings.ToLower lower labelField) lowerName then
        match strconv.Atoi pidField with
        | some pid => if pid > 0 then pid else launchdLines lower lowerName rest
        | none => launchdLines lower lowerName rest
      else launchdLines lower lowerName rest
    | _ => launchdLines lower lowerName rest

/-- The method `darwinPlatform.resolveLaunchdService`. -/
def resolveLaunchdService (lower : Char → Char) (h : Host) (name : Str) : Int :=
  match h.launchctlList with
  | none => 0
  | some out => launchdLines lower (strings.ToLower lower name) (strings.Split out '\n')

/-- One turn of the loop over the lines of `ps` in `ResolveName` (lines 277-295): the PID the
turn appends to `procPIDs`, if any. -/
def scanLine (lower : Char → Char) (lowerName : Str) (selfPid parentPid : Int) (line : Str) :
    Option Int :=
  match strings.Fields line with
  | pidField :: commField :: argFields =>
    match strconv.Atoi pidField with
    | none => none
    | some pid =>
      if pid = selfPid ∨ pid = parentPid then none
      else
        let comm := strings.ToLower lower commField
        let args := strings.ToLower lower (strings.Join argFields ' ')
        if strings.Contains comm lowerName || strings.Contains args lowerName then
          if !strings.Contains args "grep".toList && !strings.Contains args "witr".toList then
            some pid
          else none
        else none
  | _ => none

/-- The list `procPIDs` at the end of the scan. -/
def scanProcesses (lower : Char → Char) (h : Host) (name : Str) : List Int :=
  (strings.Split h.psAll '\n').filterMap
    (scanLine lower (strings.ToLower lower name) h.selfPid h.parentPid)

/-- The candidate lines printed before the ambiguous exit (lines 306-308), numbered from
`idx`. -/
def candidateLines : Nat → List Int → List Str
  | _, [] => []
  | idx, pid :: rest =>
    ("[".toList ++ Nat.toDigits 10 idx ++ "] PID ".toList ++ strconv.Itoa pid) ::
      candidateLines (idx + 1) rest

/-- The text printed before the ambiguous exit (lines 303-312), line by line. -/
def ambiguousReport (name : Str) (procPIDs : List Int) : List Str :=
  ["Ambiguous target: \"".toList ++ name ++ "\"".toList, [],
   "The name matches multiple processes:".toList, []] ++
  candidateLines 1 procPIDs ++
  [[], "witr cannot determine intent safely.".toList,
   "Please re-run with an explicit PID:".toList, "  witr --pid <pid>".toList]

/-- The method `darwinPlatform.ResolveName`. -/
def ResolveName (lower : Char → Char) (h : Host) (name : Str) : Outcome (List Int) :=
  let pid := resolveLaunchdService lower h name
  if pid > 0 then .ok [pid]
  else
    let procPIDs := scanProcesses lower h name
    if procPIDs.length = 0 then .error (.noSuchName name)
    else if procPIDs.length > 1 then .exit 1 (ambiguousReport name procPIDs)
    else .ok procPIDs

/-- The candidates of a name on macOS in the words of the specification: the launchd service
match, if there is one, together with the matches of the process scan. -/
def mergedCandidates (lower : Char → Char) (h : Host) (name : Str) : List Int :=
  (if resolveLaunchdService lower h name > 0 then [resolveLaunchdService lower h name]
   else []) ++
    scanProcesses lower h name

end Darwin

/-! ## `internal/target/resolve.go` -/

/-- The type `model.TargetType`; `other` stands for any value besides the three constants. -/
inductive TargetType where
  | PID
  | Port
  | Name
  | other
  deriving DecidableEq, Repr

/-- The type `model.Target`. -/
structure Target where
  Typ : TargetType
  Value : Str
  deriving DecidableEq, Repr

/-- The two methods of `platform.Current` that `Resolve` calls. -/
structure Platform where
  ResolvePort : Int → Except Err (List Int)
  ResolveName : Str → Outcome (List Int)

/-- The function `target.Resolve`. -/
def Resolve (platform : Platform) (t : Target) : Outcome (List Int) :=
  match t.Typ with
  | .PID =>
    match strconv.Atoi t.Value with
    | none => .error .invalidPid
    | some pid => .ok [pid]
  | .Port =>
    match strconv.Atoi t.Value with
    | none => .error .invalidPort
    | some port =>
      match platform.ResolvePort port with
      | .ok pids => .ok pids
      | .error e => .error e
  | .Name => platform.ResolveName t.Value
  | .other => .error .unknownTarget

/-! ## `pkg/model/process_tree.go` and `internal/proc/children.go` -/

/-- The type `model.ProcessTree`. -/
inductive ProcessTree where
  | node (Process : Process) (Children : List ProcessTree)
  deriving Repr

namespace ProcessTree

/-- Field `Process` of a node. -/
def proc : ProcessTree → Process
  | node p _ => p

/-- Field `Children` of a node. -/
def children : ProcessTree → List ProcessTree
  | node _ cs => cs

end ProcessTree

/-- Go slice indexing `xs[i]` with an `int` index: `none` stands for the run-time panic
`index out of range`. -/
def index {α : Type} (xs : List α) (i : Int) : Option α :=
  if i < 0 then none else xs.get? i.toNat

/-- The function `sortProcesses`: ascending by PID. `sort.Slice` is not stable, so the order
among processes of equal PID is one of those it may produce. -/
def sortProcesses (processes : List Process) : List Process :=
  processes.insertionSort (fun a b => a.PID ≤ b.PID)

/-- The function `ResolveChildren`; `snapshot` is the result of `listProcessSnapshot()`. -/
def ResolveChildren (snapshot : Except Err (List Process)) (pid : Int) :
    Except Err (List Process) :=
  if pid ≤ 0 then .error .invalidPid
  else
    match snapshot with
    | .error e => .error e
    | .ok processes => .ok (sortProcesses (processes.filter (fun p => p.PPID = pid)))

/-- The function `indexByParent`: the map from a PPID to the processes that carry it, in
snapshot order; a key that is absent yields the empty slice. -/
def indexByParent (processes : List Process) (ppid : Int) : List Process :=
  processes.filter (fun p => p.PPID = ppid)

/-- The map `childrenIndex` after the loop of lines 44-47 sorted each group. -/
def sortedIndex (processes : List Process) (ppid : Int) : List Process :=
  sortProcesses (indexByParent processes ppid)

/-- The loop of lines 59-61: `build` is applied to the children from left to right, the
map `visited` threaded through; `none` when a call ran out of recursion budget. -/
def buildNodes (build : List Int → Process → Option (ProcessTree × List Int)) :
    List Int → List Process → Option (List ProcessTree × List Int)
  | visited, [] => some ([], visited)
  | visited, child :: rest =>
    match build visited child with
    | none => none
    | some (node, visited1) =>
      match buildNodes build visited1 rest with
      | none => none
      | some (nodes, visited2) => some (node :: nodes, visited2)

/-- The closure `buildTree` of `ResolveDescendants` (lines 51-63) with the map `visited` made an
argument and a result: the PIDs marked so far, latest first. `fuel` bounds the depth of
nested expansions; `none` means it ran out. -/
def buildTree (childrenIndex : Int → List Process) :
    Nat → List Int → Process → Option (ProcessTree × List Int)
  | fuel, visited, proc =>
    if proc.PID ∈ visited then some (.node proc [], visited)
    else
      match fuel with
      | 0 => none
      | fuel + 1 =>
        match buildNodes (buildTree childrenIndex fuel) (proc.PID :: visited)
            (childrenIndex proc.PID) with
        | none => none
        | some (nodes, visited1) => some (.node proc nodes, visited1)

/-- Outcome of `ResolveDescendants`: an error of the Go function, or the returned tree
(`none` when the recursion budget of the embedding ran out before the Go function
returned). -/
def ResolveDescendants (snapshot : Except Err (List Process)) (root : Process) :
    Except Err (Option ProcessTree) :=
  if root.PID ≤ 0 then .error .invalidPid
  else
    match snapshot with
    | .error e => .error e
    | .ok processes =>
      .ok ((buildTree (sortedIndex processes) (processes.length + 1) [] root).map Prod.fst)

mutual
/-- All nodes of a tree, the root first, then those of each child in order. -/
def ProcessTree.nodes : ProcessTree → List ProcessTree
  | .node p cs => .node p cs :: ProcessTree.nodesOfList cs
/-- All nodes of a sequence of trees. -/
def ProcessTree.nodesOfList : List ProcessTree → List ProcessTree
  | [] => []
  | c :: cs => c.nodes ++ ProcessTree.nodesOfList cs
end

/-- The PIDs of the nodes of a tree that have at least one child. -/
def ProcessTree.expandedPIDs (t : ProcessTree) : List Int :=
  (t.nodes.filter (fun n => !n.children.isEmpty)).map (fun n => n.proc.PID)

/-- The PIDs of the nodes with at least one child among the nodes of a sequence of trees. -/
def ProcessTree.expandedOfList (ts : List ProcessTree) : List Int :=
  ((ProcessTree.nodesOfList ts).filter (fun n => !n.children.isEmpty)).map (fun n => n.proc.PID)

/-- A node agrees with a children index: it is childless, or the processes of its children
are, in order, the group the index holds for its PID. -/
def ProcessTree.childrenFrom (childrenIndex : Int → List Process) (n : ProcessTree) : Prop :=
  n.children = [] ∨ n.children.map ProcessTree.proc = childrenIndex n.proc.PID

/-! ## `internal/source` -/

/-- The constants of `model.SourceType`. -/
inductive SourceType where
  | container
  | supervisor
  | systemd
  | launchd
  | cron
  | shell
  | windowsService
  | unknown
  deriving DecidableEq, Repr

/-- The type `model.Source`. `Confidence` holds the value of the decimal literal the source
assigns; `Details` lists the entries of the map. -/
structure Source where
  Typ : SourceType
  Name : Str
  Description : Str
  UnitFile : Str
  Confidence : ℚ
  Details : List (Str × Str)
  deriving DecidableEq

/-- A run-time panic of the Go program. -/
inductive Panic where
  | indexOutOfRange
  deriving DecidableEq, Repr

namespace strings

/-- The first occurrence of `sep` cuts `s` in two; `none` when `sep` does not occur. -/
def cut (sep : Char) : Str → Option (Str × Str)
  | [] => none
  | c :: s =>
    if c == sep then some ([], s)
    else
      match cut sep s with
      | some (before, after) => some (c :: before, after)
      | none => none

/-- The function `strings.SplitN` for a one-rune separator and `n ≥ 0`: at most `n` pieces, the
last one the unsplit rest. -/
def SplitN (s : Str) (sep : Char) : Nat → List Str
  | 0 => []
  | 1 => [s]
  | n + 2 =>
    match cut sep s with
    | none => [s]
    | some (before, after) => before :: SplitN after sep (n + 1)

end strings

namespace Linux

/-- What the systemd detector reads from the system. -/
structure Systemd where
  /-- Whether `exec.LookPath("systemctl")` succeeds. -/
  lookPathSystemctl : Bool
  /-- Content of `/proc/<pid>/cgroup`, `none` when the read fails. -/
  cgroup : Int → Option Str
  /-- Output of `systemctl show -p <prop> --value <target>`, `none` when the command fails. -/
  systemctlShow : Str → Str → Option Str

/-- The function `querySystemdProperty`. -/
def querySystemdProperty (sys : Systemd) (prop target : Str) : Str :=
  match sys.systemctlShow prop target with
  | none => []
  | some out =>
    let path := strings.TrimSpace out
    if path = [] ∨ strings.Contains path "not set".toList then [] else path

/-- The inner loop of `getUnitNameFromCgroup` (lines 115-120): the last piece that ends in
`.service` or `.scope`. -/
def unitOfPath (pathParts : List Str) : Option Str :=
  pathParts.reverse.find? (fun part =>
    strings.HasSuffix part ".service".toList || strings.HasSuffix part ".scope".toList)

/-- The loop of `getUnitNameFromCgroup` over the lines of the cgroup file (lines 100-123). -/
def unitOfLines : List Str → Str
  | [] => []
  | line :: rest =>
    match strings.SplitN line ':' 3 with
    | _ :: controllers :: path :: _ =>
      if controllers = [] ∨ strings.Contains controllers "systemd".toList then
        match unitOfPath (strings.Split (strings.TrimSpace (strings.TrimSpace path)) '/') with
        | some part => part
        | none => unitOfLines rest
      else unitOfLines rest
    | _ => unitOfLines rest

/-- The function `getUnitNameFromCgroup`. -/
def getUnitNameFromCgroup (sys : Systemd) (pid : Int) : Str :=
  match sys.cgroup pid with
  | none => []
  | some data => unitOfLines (strings.Split data '\n')

/-- The function `resolveUnitDescription`. -/
def resolveUnitDescription (sys : Systemd) (pid : Int) : Str :=
  if !sys.lookPathSystemctl then []
  else
    let unitName := getUnitNameFromCgroup sys pid
    let byUnit := if unitName ≠ [] then querySystemdProperty sys "Description".toList unitName else []
    if byUnit ≠ [] then byUnit
    else querySystemdProperty sys "Description".toList (strconv.Itoa pid)

/-- The function `resolveUnitFile`. -/
def resolveUnitFile (sys : Systemd) (pid : Int) : Str :=
  if !sys.lookPathSystemctl then []
  else
    let unitName := getUnitNameFromCgroup sys pid
    let fragment := if unitName ≠ [] then querySystemdProperty sys "FragmentPath".toList unitName else []
    if fragment ≠ [] then fragment
    else
      let source := if unitName ≠ [] then querySystemdProperty sys "SourcePath".toList unitName else []
      if source ≠ [] then source
      else
        let byPid := querySystemdProperty sys "FragmentPath".toList (strconv.Itoa pid)
        if byPid ≠ [] then byPid
        else querySystemdProperty sys "SourcePath".toList (strconv.Itoa pid)

/-- The function `detectSystemd`; `none` is the nil verdict. -/
def detectSystemd (sys : Systemd) (ancestry : List Process) : Except Panic (Option Source) :=
  let hasSystemd := ancestry.any (fun p =>
    p.PID = 1 && (p.Command = "systemd".toList || p.Command = "init".toList))
  if !hasSystemd then .ok none
  else
    match index ancestry ((ancestry.length : Int) - 1) with
    | none => .error .indexOutOfRange
    | some targetProc =>
      .ok (some
        { Typ := .systemd, Name := "systemd".toList,
          Description := resolveUnitDescription sys targetProc.PID,
          UnitFile := resolveUnitFile sys targetProc.PID,
          Confidence := 0, Details := [] })

/-- The detectors of the package that `Detect` calls besides `detectSystemd`; `none` is the
nil verdict. -/
structure Detectors where
  detectContainer : List Process → Option Source
  detectSupervisor : List Process → Option Source
  detectCron : List Process → Option Source
  detectShell : List Process → Option Source

/-- The function `Detect` of `detect_linux.go`. -/
def Detect (d : Detectors) (sys : Systemd) (ancestry : List Process) : Except Panic Source :=
  match d.detectContainer ancestry with
  | some src => .ok src
  | none =>
    match d.detectSupervisor ancestry with
    | some src => .ok src
    | none =>
      match detectSystemd sys ancestry with
      | .error p => .error p
      | .ok (some src) => .ok src
      | .ok none =>
        match d.detectCron ancestry with
        | some src => .ok src
        | none =>
          match d.detectShell ancestry with
          | some src => .ok src
          | none =>
            .ok { Typ := .unknown, Name := [], Description := [], UnitFile := [],
                  Confidence := 0.2, Details := [] }

end Linux

namespace Windows

/-- The prefix of the registry key of a service. -/
def registryPrefix : Str := "HKLM\\SYSTEM\\CurrentControlSet\\Services\\".toList

/-- The function `detectWindowsService`; `none` is the nil verdict. -/
def detectWindowsService (lower : Char → Char) (ancestry : List Process) :
    Except Panic (Option Source) :=
  match ancestry.reverse.find? (fun p => p.Service ≠ []) with
  | some p =>
    .ok (some
      { Typ := .windowsService, Name := p.Service, Description := [],
        UnitFile := registryPrefix ++ p.Service, Confidence := 0,
        Details := [("manager".toList, "services.exe".toList), ("service".toList, p.Service)] })
  | none =>
    if ancestry.any (fun p => strings.ToLower lower p.Command = "services.exe".toList) then
      .ok (some
        { Typ := .windowsService, Name := "Service Control Manager".toList, Description := [],
          UnitFile := [], Confidence := 0,
          Details := [("manager".toList, "services.exe".toList)] })
    else if ancestry.length ≥ 2 then
      match index ancestry ((ancestry.length : Int) - 2),
          index ancestry ((ancestry.length : Int) - 1) with
      | some parent, some target =>
        if strings.ToLower lower parent.Command = "services.exe".toList then
          let name := strings.TrimSuffix target.Command ".exe".toList
          .ok (some
            { Typ := .windowsService, Name := name, Description := [],
              UnitFile := registryPrefix ++ name, Confidence := 0,
              Details := [("manager".toList, "services.exe".toList)] })
        else .ok none
      | _, _ => .error .indexOutOfRange
    else .ok none

end Windows

/-- The verdict of step 2 of `detectWindowsService`, for reference in the theorems. -/
def Windows.genericVerdict : Source :=
  { Typ := .windowsService, Name := "Service Control Manager".toList, Description := [],
    UnitFile := [], Confidence := 0, Details := [("manager".toList, "services.exe".toList)] }

/-- The fallback verdict of `Detect`, for reference in the theorems. -/
def unknownSource : Source :=
  { Typ := .unknown, Name := [], Description := [], UnitFile := [], Confidence := 0.2,
    Details := [] }

/-- The verdict of `detectSystemd`, a panic counted as no verdict. -/
def Linux.systemdVerdict (sys : Linux.Systemd) (ancestry : List Process) : Option Source :=
  match Linux.detectSystemd sys ancestry with
  | .ok verdict => verdict
  | .error _ => none

/-- The chain of detectors of Linux in the order of the specification: container, supervisor,
systemd, cron, shell. -/
def Linux.detectorChain (d : Linux.Detectors) (sys : Linux.Systemd) :
    List (List Process → Option Source) :=
  [d.detectContainer, d.detectSupervisor, Linux.systemdVerdict sys, d.detectCron, d.detectShell]

/-- Value of a block of decimal digits. -/
def digitsValue (digits : Str) : Nat :=
  digits.foldl (fun acc c => acc * 10 + (c.toNat - 48)) 0

/-- The text `value` is an optionally signed decimal numeral of the integer `n`, which fits a
64-bit `int`: an optional `+` or `-` followed by one or more digits. -/
def IsNumeral (value : Str) (n : Int) : Prop :=
  ∃ digits : Str, digits ≠ [] ∧ (∀ c ∈ digits, c.isDigit = true) ∧
    -(2 : Int) ^ 63 ≤ n ∧ n < (2 : Int) ^ 63 ∧
    (((value = digits ∨ value = '+' :: digits) ∧ n = (digitsValue digits : Int)) ∨
      (value = '-' :: digits ∧ n = -(digitsValue digits : Int)))

/-- The verdict of step 1 of `detectWindowsService` for a service name, for reference in the
theorems. -/
def Windows.serviceVerdict (service : Str) : Source :=
  { Typ := .windowsService, Name := service, Description := [],
    UnitFile := "HKLM\\SYSTEM\\CurrentControlSet\\Services\\".toList ++ service, Confidence := 0,
    Details := [("manager".toList, "services.exe".toList), ("service".toList, service)] }

/-- The verdict of `detectSystemd` for a target PID, for reference in the theorems. -/
def Linux.systemdSource (sys : Linux.Systemd) (targetPID : Int) : Source :=
  { Typ := .systemd, Name := "systemd".toList,
    Description := Linux.resolveUnitDescription sys targetPID,
    UnitFile := Linux.resolveUnitFile sys targetPID, Confidence := 0, Details := [] }

/-- The answers `resolveUnitFile` consults for a PID, in the order of the specification: the
fragment path and the source path of the cgroup unit (left out when the unit name is empty),
then the fragment path and the source path queried by the PID itself. -/
def Linux.unitFileAnswers (sys : Linux.Systemd) (pid : Int) : List Str :=
  (if Linux.getUnitNameFromCgroup sys pid ≠ [] then
    [Linux.querySystemdProperty sys "FragmentPath".toList (Linux.getUnitNameFromCgroup sys pid),
     Linux.querySystemdProperty sys "SourcePath".toList (Linux.getUnitNameFromCgroup sys pid)]
   else []) ++
  [Linux.querySystemdProperty sys "FragmentPath".toList (strconv.Itoa pid),
   Linux.querySystemdProperty sys "SourcePath".toList (strconv.Itoa pid)]

/-- The body of the loop of `unitOfLines` for one line (lines 101-121 of
`systemd_linux.go`): the unit name the line yields, if any; for reference in the theorems. -/
def Linux.unitOfLine (line : Str) : Option Str :=
  match strings.SplitN line ':' 3 with
  | _ :: controllers :: path :: _ =>
    if controllers = [] ∨ strings.Contains controllers "systemd".toList then
      Linux.unitOfPath (strings.Split (strings.TrimSpace (strings.TrimSpace path)) '/')
    else none
  | _ => none

/-- The text ends in `.service` or in `.scope`. -/
def Linux.IsUnitName (part : Str) : Prop :=
  (∃ stem, part = stem ++ ".service".toList) ∨ ∃ stem, part = stem ++ ".scope".toList

/-- The line has at least three fields separated by `:`; `controllers` is the second field
and `path` is all that follows the second `:`. -/
def Linux.CgroupLine (line controllers path : Str) : Prop :=
  ∃ hierarchy, line = hierarchy ++ ':' :: (controllers ++ ':' :: path) ∧
    ':' ∉ hierarchy ∧ ':' ∉ controllers

/-- The controller field is empty or contains `systemd`. -/
def Linux.SystemdControllers (controllers : Str) : Prop :=
  controllers = [] ∨ ∃ a b, controllers = a ++ "systemd".toList ++ b

/-- The segments of a cgroup path between `/`, the white space around the path removed. -/
def Linux.pathSegments (path : Str) : List Str :=
  strings.Split (strings.TrimSpace path) '/'

/-- The line yields no unit name: if it is a cgroup line whose controller field is empty or
contains `systemd`, no segment of its path ends in `.service` or `.scope`. -/
def Linux.NoUnit (line : Str) : Prop :=
  ∀ controllers path, Linux.CgroupLine line controllers path →
    Linux.SystemdControllers controllers →
    ∀ part ∈ Linux.pathSegments path, ¬ Linux.IsUnitName part

/-- The processes of the nodes of a tree below its root node. -/
def ProcessTree.belowProcs (t : ProcessTree) : List Process :=
  (ProcessTree.nodesOfList t.children).map ProcessTree.proc

/-- The process `p` of the snapshot is a descendant of the PID `a`: its PPID is `a`, or its
PPID is the PID of a descendant of `a`. -/
inductive Descends (processes : List Process) (a : Int) : Process → Prop where
  | child (p : Process) : p ∈ processes → p.PPID = a → Descends processes a p
  | step (m p : Process) : Descends processes a m → p ∈ processes → p.PPID = m.PID →
      Descends processes a p

/-! ## Sample inputs -/

namespace Sample

/-- The table `unicode.ToLower` on the ASCII runes, the only runes of the sample inputs below
(a rune outside ASCII is left as it is). -/
def asciiLower : Char → Char := Char.toLower

/-- A macOS host on which launchd runs a service labelled `com.example.nginx` as PID 100 and
`ps` lists an unrelated process 200 whose command is `nginx`. -/
def darwinHost : Darwin.Host where
  launchctlList := some "PID\tStatus\tLabel\n100\t0\tcom.example.nginx\n".toList
  psAll := "  200 nginx nginx -g daemon off;\n".toList
  lsofPort := fun _ => none
  selfPid := 900
  parentPid := 899

/-- A macOS host without a matching launchd service on which `ps` lists two `nginx`
processes. -/
def darwinHostTwo : Darwin.Host where
  launchctlList := some "PID\tStatus\tLabel\n-\t0\tcom.apple.Finder\n".toList
  psAll := "  200 nginx nginx -g daemon off;\n  300 nginx nginx -s reload\n".toList
  lsofPort := fun _ => none
  selfPid := 900
  parentPid := 899

/-- A Windows ancestry: a service process `myservice.exe` started by `services.exe`, neither
process carrying a service name. -/
def scmChild : List Process :=
  [ { PID := 700, PPID := 600, Command := "services.exe".toList, Cmdline := [], Service := [] },
    { PID := 4242, PPID := 700, Command := "myservice.exe".toList, Cmdline := [], Service := [] } ]

/-- Content of a `cmdline` file that names a file under `/etc/witr`. -/
def witrCmdline : Str := "nginx\x00-c\x00/etc/witr/nginx.conf\x00".toList

/-- Content of a `cmdline` file that names a file `grep.log`. -/
def grepCmdline : Str := "nginx\x00-e\x00/var/log/grep.log\x00".toList

/-- A Linux host with two processes whose short name is `nginx`, with the command lines
`witrCmdline` and `grepCmdline`. -/
def linuxHost : Linux.Host where
  procDir :=
    [ { name := "200".toList, comm := some "nginx\n".toList, cmdline := some witrCmdline,
        fds := none },
      { name := "300".toList, comm := some "nginx\n".toList, cmdline := some grepCmdline,
        fds := none } ]
  netTcp := none
  netTcp6 := none
  selfPid := 900
  parentPid := 899
  systemctlMainPID := fun _ => none

/-- A socket table with one line: an established connection (state `01`) whose local port is
8080 (`1F90`), inode 67890. -/
def tcpEstablished : Str :=
  ("  sl  local_address rem_address   st tx_queue rx_queue tr tm->when retrnsmt   uid  timeout inode\n" ++
   "   1: 0100007F:1F90 0100007F:D431 01 00000000:00000000 00:00000000 00000000  1000        0 67890 1 0000000000000000 20 4 30 10 -1\n").toList

/-- A Linux host whose only TCP socket is the one of `tcpEstablished`. -/
def linuxHostEstablished : Linux.Host where
  procDir := []
  netTcp := some tcpEstablished
  netTcp6 := none
  selfPid := 900
  parentPid := 899
  systemctlMainPID := fun _ => none

/-- A platform on which no port and no name resolves. -/
def emptyPlatform : Platform where
  ResolvePort := fun port => .error (.noListener port)
  ResolveName := fun name => .error (.noSuchName name)

/-- A snapshot with a cycle of parent links: process 1 is a child of 10 and 10 a child of 1;
process 20 is listed before its sibling 10. -/
def cyclicSnapshot : List Process :=
  [ { PID := 20, PPID := 1, Command := "worker".toList, Cmdline := [], Service := [] },
    { PID := 10, PPID := 1, Command := "worker".toList, Cmdline := [], Service := [] },
    { PID := 1, PPID := 10, Command := "init".toList, Cmdline := [], Service := [] } ]

/-- The root handed to `ResolveDescendants` along with `cyclicSnapshot`. -/
def rootProcess : Process :=
  { PID := 1, PPID := 10, Command := "init".toList, Cmdline := [], Service := [] }

/-- A Windows ancestry in which two processes carry a service name; `Spooler` is the one
nearest the target. -/
def serviceAncestry : List Process :=
  [ { PID := 700, PPID := 600, Command := "services.exe".toList, Cmdline := [], Service := [] },
    { PID := 800, PPID := 700, Command := "svchost.exe".toList, Cmdline := [],
      Service := "Schedule".toList },
    { PID := 810, PPID := 800, Command := "spoolsv.exe".toList, Cmdline := [],
      Service := "Spooler".toList },
    { PID := 820, PPID := 810, Command := "helper.exe".toList, Cmdline := [], Service := [] } ]

/-- A systemd host: process 4321 is in the cgroup of `nginx.service`, whose fragment path the
init system knows; a query by PID yields nothing. -/
def systemdHost : Linux.Systemd where
  lookPathSystemctl := true
  cgroup := fun pid =>
    if pid = 4321 then some "0::/system.slice/nginx.service\n".toList else none
  systemctlShow := fun prop target =>
    if prop = "FragmentPath".toList ∧ target = "nginx.service".toList then
      some "/lib/systemd/system/nginx.service\n".toList
    else if prop = "Description".toList ∧ target = "nginx.service".toList then
      some "A high performance web server\n".toList
    else some "\n".toList

/-- The processes of `cyclicSnapshot` listed in another order. -/
def cyclicSnapshotReordered : List Process :=
  [ { PID := 1, PPID := 10, Command := "init".toList, Cmdline := [], Service := [] },
    { PID := 20, PPID := 1, Command := "worker".toList, Cmdline := [], Service := [] },
    { PID := 10, PPID := 1, Command := "worker".toList, Cmdline := [], Service := [] } ]

/-- A socket table with one listening socket on port 8080 (`1F90`), inode 12345. -/
def tcpListening : Str :=
  ("  sl  local_address rem_address   st tx_queue rx_queue tr tm->when retrnsmt   uid  timeout inode\n" ++
   "   0: 00000000:1F90 00000000:0000 0A 00000000:00000000 00:00000000 00000000     0        0 12345 1 0000000000000000 100 0 0 10 0\n").toList

/-- A Linux host on which the processes 4000 and 50 both hold the socket of `tcpListening`. -/
def linuxHostListening : Linux.Host where
  procDir :=
    [ { name := "4000".toList, comm := none, cmdline := none,
        fds := some [some "/dev/null".toList, some "socket:[12345]".toList] },
      { name := "50".toList, comm := none, cmdline := none,
        fds := some [some "socket:[12345]".toList] },
      { name := "self".toList, comm := none, cmdline := none, fds := none } ]
  netTcp := some tcpListening
  netTcp6 := none
  selfPid := 900
  parentPid := 899
  systemctlMainPID := fun _ => none

/-- A cgroup file of the first cgroup version: the `pids` line is not a systemd line, the
`name=systemd` line carries the session scope. -/
def cgroupV1 : Str :=
  ("12:pids:/system.slice/docker.service\n" ++
   "1:name=systemd:/user.slice/user-1000.slice/session-3.scope\n" ++
   "0::/user.slice/other.service\n").toList

/-- A host on which every process has the cgroup file `cgroupV1`. -/
def cgroupHost : Linux.Systemd where
  lookPathSystemctl := true
  cgroup := fun _ => some cgroupV1
  systemctlShow := fun _ _ => none

/-- A snapshot without a cycle: 10 and 20 are children of 1, 30 is a child of 10, and 40
belongs to another tree. -/
def treeSnapshot : List Process :=
  [ { PID := 30, PPID := 10, Command := "worker".toList, Cmdline := [], Service := [] },
    { PID := 20, PPID := 1, Command := "cron".toList, Cmdline := [], Service := [] },
    { PID := 1, PPID := 0, Command := "init".toList, Cmdline := [], Service := [] },
    { PID := 40, PPID := 2, Command := "kworker".toList, Cmdline := [], Service := [] },
    { PID := 10, PPID := 1, Command := "sshd".toList, Cmdline := [], Service := [] } ]

/-- The root handed to `ResolveDescendants` along with `treeSnapshot`. -/
def treeRoot : Process :=
  { PID := 1, PPID := 0, Command := "init".toList, Cmdline := [], Service := [] }


/-- The table `unicode.ToLower` on the ASCII runes and on the capital I with dot above
(U+0130), which the Go table maps to `i`. -/
def dottedLower : Char → Char := fun c => if c = 'İ' then 'i' else Char.toLower c

/-- A Windows ancestry whose only process has a command name written with the capital I with
dot above. -/
def dottedScm : List Process :=
  [ { PID := 700, PPID := 600, Command := "SERVİCES.EXE".toList, Cmdline := [],
      Service := [] } ]

end Sample

/-! ## Theorems -/

/-! ### Name resolution on Linux -/

theorem Linux.uniquePIDs_length (servicePID : Int) (procPIDs : List Int) :
    (Linux.uniquePIDs servicePID procPIDs).length =
      ((if servicePID > 0 then [servicePID] else []) ++ procPIDs).toFinset.card := by
  unfold Linux.uniquePIDs
  rw [List.card_toFinset]

/-- The worker lines of the report are those of the scan matches other than the service PID,
numbered consecutively. -/
theorem Linux.manualLines_eq (name : Str) (servicePID : Int) (procPIDs : List Int) (idx : Nat) :
    Linux.manualLines name servicePID idx procPIDs =
      ((procPIDs.filter (fun pid => pid ≠ servicePID)).enumFrom idx).map (fun entry =>
        "[".toList ++ Nat.toDigits 10 entry.1 ++ "] PID ".toList ++ strconv.Itoa entry.2 ++
          "   ".toList ++ name ++ ": worker process   (manual)".toList) := by
  induction procPIDs generalizing idx with
  | nil => rfl
  | cons pid rest ih =>
    unfold Linux.manualLines
    by_cases hp : pid = servicePID
    · rw [if_pos hp, ih, List.filter_cons_of_neg (by simpa using hp)]
    · rw [if_neg hp, ih, List.filter_cons_of_pos (by simpa using hp)]
      rfl

/-- Every scan match other than the service PID has its numbered worker line. -/
theorem Linux.manualLines_mem (name : Str) (servicePID : Int) (procPIDs : List Int) (idx : Nat)
    (pid : Int) (hmem : pid ∈ procPIDs) (hne : pid ≠ servicePID) :
    ∃ k, idx ≤ k ∧
      ("[".toList ++ Nat.toDigits 10 k ++ "] PID ".toList ++ strconv.Itoa pid ++
        "   ".toList ++ name ++ ": worker process   (manual)".toList) ∈
        Linux.manualLines name servicePID idx procPIDs := by
  induction procPIDs generalizing idx with
  | nil => exact absurd hmem (List.not_mem_nil pid)
  | cons q rest ih =>
    unfold Linux.manualLines
    by_cases hq : q = servicePID
    · rw [if_pos hq]
      rcases List.mem_cons.mp hmem with hpq | hrest
      · exact absurd (hpq.trans hq) hne
      · exact ih idx hrest
    · rw [if_neg hq]
      rcases List.mem_cons.mp hmem with hpq | hrest
      · exact ⟨idx, le_refl idx, by rw [hpq]; exact List.mem_cons_self _ _⟩
      · obtain ⟨k, hk, hline⟩ := ih (idx + 1) hrest
        exact ⟨k, by omega, List.mem_cons_of_mem _ hline⟩

/-- C1: on Linux, when the merged candidates (the service main PID if positive, together with
the matches of the process scan) hold more than one distinct PID, `ResolveName` returns no
PID sequence but prints the report and exits with status 1; hence every sequence it returns
holds exactly one distinct PID. The report is the heading, the master line of a positive
service PID, one numbered worker line for every scan match other than the service PID, and
the closing advice. This holds for the merging step on every name, scan list and service
PID, and so for `ResolveName` on every host. -/
theorem Linux.ResolveName_ambiguous_hard_stop (name : Str) (procPIDs : List Int)
    (servicePID : Int) :
    (1 < ((if servicePID > 0 then [servicePID] else []) ++ procPIDs).toFinset.card →
      Linux.resolveCandidates name procPIDs servicePID =
        .exit 1 (Linux.ambiguousReport name servicePID procPIDs)) ∧
    (∀ pids, Linux.resolveCandidates name procPIDs servicePID = .ok pids →
      pids.toFinset.card = 1) ∧
    Linux.ambiguousReport name servicePID procPIDs =
      ["Ambiguous target: \"".toList ++ name ++ "\"".toList, [],
       "The name matches multiple entities:".toList, []] ++
      (if 0 < servicePID then
        ["[1] PID ".toList ++ strconv.Itoa servicePID ++ "   ".toList ++ name ++
          ": master process   (service)".toList]
       else []) ++
      ((procPIDs.filter (fun pid => pid ≠ servicePID)).enumFrom 2).map (fun entry =>
        "[".toList ++ Nat.toDigits 10 entry.1 ++ "] PID ".toList ++ strconv.Itoa entry.2 ++
          "   ".toList ++ name ++ ": worker process   (manual)".toList) ++
      [[], "witr cannot determine intent safely.".toList,
       "Please re-run with an explicit PID:".toList, "  witr --pid <pid>".toList] ∧
    (0 < servicePID →
      ("[1] PID ".toList ++ strconv.Itoa servicePID ++ "   ".toList ++ name ++
        ": master process   (service)".toList) ∈
        Linux.ambiguousReport name servicePID procPIDs) ∧
    (∀ pid ∈ procPIDs, pid ≠ servicePID → ∃ k, 2 ≤ k ∧
      ("[".toList ++ Nat.toDigits 10 k ++ "] PID ".toList ++ strconv.Itoa pid ++
        "   ".toList ++ name ++ ": worker process   (manual)".toList) ∈
        Linux.ambiguousReport name servicePID procPIDs) ∧
    (∀ (lower : Char → Char) (h : Linux.Host),
      (1 < ((if Linux.servicePID h name > 0 then [Linux.servicePID h name] else []) ++
          Linux.scanProcesses lower h name).toFinset.card →
        Linux.ResolveName lower h name =
          .exit 1 (Linux.ambiguousReport name (Linux.servicePID h name)
            (Linux.scanProcesses lower h name))) ∧
      (∀ pids, Linux.ResolveName lower h name = .ok pids → pids.toFinset.card = 1)) := by
  have stop : ∀ (n : Str) (ps : List Int) (s : Int),
      1 < ((if s > 0 then [s] else []) ++ ps).toFinset.card →
      Linux.resolveCandidates n ps s = .exit 1 (Linux.ambiguousReport n s ps) := by
    intro n ps s hcard
    unfold Linux.resolveCandidates
    rw [if_pos (by rw [Linux.uniquePIDs_length]; exact hcard)]
  have single : ∀ (n : Str) (ps : List Int) (s : Int) (pids : List Int),
      Linux.resolveCandidates n ps s = .ok pids → pids.toFinset.card = 1 := by
    intro n ps s pids hres
    unfold Linux.resolveCandidates at hres
    have hlen := Linux.uniquePIDs_length s ps
    split_ifs at hres with h1 h2 h3
    · cases hres
      simp
    · cases hres
      rw [if_neg h2, List.nil_append] at hlen
      have hpos : 0 < ps.toFinset.card := by
        rw [Finset.card_pos]
        obtain ⟨x, hx⟩ := List.exists_mem_of_length_pos h3
        exact ⟨x, List.mem_toFinset.mpr hx⟩
      omega
  refine ⟨stop name procPIDs servicePID, single name procPIDs servicePID, ?_, ?_, ?_, ?_⟩
  · unfold Linux.ambiguousReport
    rw [Linux.manualLines_eq]
  · intro hs
    unfold Linux.ambiguousReport
    rw [if_pos hs]
    simp
  · intro pid hmem hne
    obtain ⟨k, hk, hline⟩ := Linux.manualLines_mem name servicePID procPIDs 2 pid hmem hne
    refine ⟨k, hk, ?_⟩
    unfold Linux.ambiguousReport
    exact List.mem_append_left _ (List.mem_append_right _ hline)
  · intro lower h
    exact ⟨fun hcard => stop _ _ _ hcard, fun pids hres => single _ _ _ _ hres⟩

/-- Witness of C1: two process matches 200 and 300 without a service stop the resolution
with a report that lists both, and a returned sequence has one distinct PID. -/
theorem Linux.ResolveName_ambiguous_hard_stop_witness :
    Linux.resolveCandidates "nginx".toList [200, 300] 0 =
        .exit 1 (Linux.ambiguousReport "nginx".toList 0 [200, 300]) ∧
    Linux.ambiguousReport "nginx".toList 0 [200, 300] =
      ["Ambiguous target: \"nginx\"".toList, [], "The name matches multiple entities:".toList, [],
       "[2] PID 200   nginx: worker process   (manual)".toList,
       "[3] PID 300   nginx: worker process   (manual)".toList, [],
       "witr cannot determine intent safely.".toList,
       "Please re-run with an explicit PID:".toList, "  witr --pid <pid>".toList] ∧
    ([200] : List Int).toFinset.card = 1 :=
  ⟨(Linux.ResolveName_ambiguous_hard_stop "nginx".toList [200, 300] 0).1 (by decide),
   by decide,
   (Linux.ResolveName_ambiguous_hard_stop "nginx".toList [200] 0).2.1 [200] (by decide)⟩

/-! ### Name resolution on macOS -/

/-- C2, the code departs from the claim: with a launchd service match (PID 100) and a
different process match (PID 200) the merged candidates hold the two distinct PIDs 100 and
200, yet the macOS `ResolveName` returns `[100]` without the ambiguous stop; the Linux
`ResolveName` merges the same two candidates and stops with the report. -/
theorem Darwin.ResolveName_service_preempts_scan :
    Darwin.resolveLaunchdService Sample.asciiLower Sample.darwinHost "nginx".toList = 100 ∧
    Darwin.scanProcesses Sample.asciiLower Sample.darwinHost "nginx".toList = [200] ∧
    1 < (Darwin.mergedCandidates Sample.asciiLower Sample.darwinHost
      "nginx".toList).toFinset.card ∧
    Darwin.ResolveName Sample.asciiLower Sample.darwinHost "nginx".toList = .ok [100] ∧
    Linux.resolveCandidates "nginx".toList [200] 100 =
      .exit 1 (Linux.ambiguousReport "nginx".toList 100 [200]) := by
  decide

/-- The two branches of the macOS `ResolveName` as the code has them: a launchd service match
with a positive PID is returned before the process scan is consulted; without such a match,
more than one distinct PID of the process scan makes `ResolveName` print the report and exit
with status 1. -/
theorem Darwin.ResolveName_ambiguous_without_service (lower : Char → Char) (h : Darwin.Host)
    (name : Str) :
    (0 < Darwin.resolveLaunchdService lower h name →
      Darwin.ResolveName lower h name = .ok [Darwin.resolveLaunchdService lower h name]) ∧
    (¬ 0 < Darwin.resolveLaunchdService lower h name →
      1 < (Darwin.scanProcesses lower h name).toFinset.card →
      Darwin.ResolveName lower h name =
        .exit 1 (Darwin.ambiguousReport name (Darwin.scanProcesses lower h name))) := by
  constructor
  · intro hs
    unfold Darwin.ResolveName
    simp only [gt_iff_lt, if_pos hs]
  · intro hs hcard
    have hlen : 1 < (Darwin.scanProcesses lower h name).length :=
      lt_of_lt_of_le hcard (List.toFinset_card_le _)
    unfold Darwin.ResolveName
    simp only [gt_iff_lt, if_neg hs]
    rw [if_neg (by omega), if_pos hlen]

/-- The two branches of the macOS `ResolveName` on the sample hosts: the service match of the
first host is returned alone, the two scan matches of the second host stop the resolution. -/
theorem Darwin.ResolveName_ambiguous_without_service_witness :
    Darwin.ResolveName Sample.asciiLower Sample.darwinHost "nginx".toList =
        .ok [Darwin.resolveLaunchdService Sample.asciiLower Sample.darwinHost "nginx".toList] ∧
    Darwin.ResolveName Sample.asciiLower Sample.darwinHostTwo "nginx".toList =
        .exit 1 (Darwin.ambiguousReport "nginx".toList
          (Darwin.scanProcesses Sample.asciiLower Sample.darwinHostTwo "nginx".toList)) :=
  ⟨(Darwin.ResolveName_ambiguous_without_service Sample.asciiLower Sample.darwinHost
      "nginx".toList).1 (by decide),
   (Darwin.ResolveName_ambiguous_without_service Sample.asciiLower Sample.darwinHostTwo
      "nginx".toList).2 (by decide) (by decide)⟩

/-! ### Port resolution -/

/-- The step of the minimum loop of the Linux `ResolvePort`. -/
theorem Linux.lowestPID_fold_pos (keys : List Int) (acc : Int) (hacc : 0 < acc)
    (hpos : ∀ p ∈ keys, 0 < p) :
    let r := keys.foldl (fun minPID pid => if minPID = 0 ∨ pid < minPID then pid else minPID) acc
    0 < r ∧ (r = acc ∨ r ∈ keys) ∧ r ≤ acc ∧ ∀ p ∈ keys, r ≤ p := by
  induction keys generalizing acc with
  | nil => simp [hacc]
  | cons k ks ih =>
    have hk : 0 < k := hpos k (List.mem_cons_self _ _)
    have hks : ∀ p ∈ ks, 0 < p := fun p hp => hpos p (List.mem_cons_of_mem _ hp)
    simp only [List.foldl_cons]
    by_cases hlt : acc = 0 ∨ k < acc
    · rw [if_pos hlt]
      have hka : k ≤ acc := by
        rcases hlt with h0 | h1
        · omega
        · omega
      obtain ⟨h1, h2, h3, h4⟩ := ih k hk hks
      refine ⟨h1, ?_, le_trans h3 hka, ?_⟩
      · rcases h2 with h2 | h2
        · exact Or.inr (by rw [h2]; exact List.mem_cons_self _ _)
        · exact Or.inr (List.mem_cons_of_mem _ h2)
      · intro p hp
        rcases List.mem_cons.mp hp with rfl | hp
        · exact h3
        · exact h4 p hp
    · rw [if_neg hlt]
      have hak : acc ≤ k := by
        by_contra hc
        exact hlt (Or.inr (by omega))
      obtain ⟨h1, h2, h3, h4⟩ := ih acc hacc hks
      refine ⟨h1, ?_, h3, ?_⟩
      · rcases h2 with h2 | h2
        · exact Or.inl h2
        · exact Or.inr (List.mem_cons_of_mem _ h2)
      · intro p hp
        rcases List.mem_cons.mp hp with rfl | hp
        · exact le_trans h3 hak
        · exact h4 p hp

/-- On a non-empty list of positive PIDs the loop ends with the least of them. -/
theorem Linux.lowestPID_least (keys : List Int) (hne : keys ≠ []) (hpos : ∀ p ∈ keys, 0 < p) :
    0 < Linux.lowestPID keys ∧ Linux.lowestPID keys ∈ keys ∧
      ∀ p ∈ keys, Linux.lowestPID keys ≤ p := by
  cases keys with
  | nil => exact absurd rfl hne
  | cons k ks =>
    have hk : 0 < k := hpos k (List.mem_cons_self _ _)
    have hks : ∀ p ∈ ks, 0 < p := fun p hp => hpos p (List.mem_cons_of_mem _ hp)
    have hstep : Linux.lowestPID (k :: ks) =
        ks.foldl (fun minPID pid => if minPID = 0 ∨ pid < minPID then pid else minPID) k := by
      simp [Linux.lowestPID]
    obtain ⟨h1, h2, h3, h4⟩ := Linux.lowestPID_fold_pos ks k hk hks
    rw [hstep]
    refine ⟨h1, ?_, ?_⟩
    · rcases h2 with h2 | h2
      · rw [h2]; exact List.mem_cons_self _ _
      · exact List.mem_cons_of_mem _ h2
    · intro p hp
      rcases List.mem_cons.mp hp with rfl | hp
      · exact h3
      · exact h4 p hp

/-- The first element of the sorted PIDs is the least of them. -/
theorem Darwin.sortInts_head (pids : List Int) (hne : pids ≠ []) :
    ∃ first rest, Darwin.sortInts pids = first :: rest ∧ first ∈ pids ∧
      ∀ p ∈ pids, first ≤ p := by
  have hperm : (Darwin.sortInts pids).Perm pids := List.perm_insertionSort _ pids
  have hsorted : (Darwin.sortInts pids).Sorted (fun a b => a ≤ b) :=
    List.sorted_insertionSort _ pids
  cases hs : Darwin.sortInts pids with
  | nil =>
    rw [hs] at hperm
    exact absurd hperm.symm.eq_nil hne
  | cons first rest =>
    rw [hs] at hperm hsorted
    refine ⟨first, rest, rfl, hperm.subset (List.mem_cons_self _ _), ?_⟩
    intro p hp
    have hp2 : p ∈ first :: rest := hperm.symm.subset hp
    rcases List.mem_cons.mp hp2 with rfl | hp3
    · exact le_refl _
    · exact (List.sorted_cons.mp hsorted).1 p hp3

/-- C3: for a non-empty set `pids` of positive PIDs owning a matching socket, enumerated in
any order `keys`, the minimum loop of Linux and the sort of macOS both select the smallest
PID, and `ResolvePort` returns the one-element sequence holding it on both platforms. -/
theorem ResolvePort_returns_smallest (pids keys : List Int) (hne : pids ≠ [])
    (hpos : ∀ p ∈ pids, 0 < p) (hperm : keys.Perm pids) :
    ∃ m, m ∈ pids ∧ (∀ p ∈ pids, m ≤ p) ∧
      Linux.selectListener keys = .ok [m] ∧
      (∀ port, Darwin.selectListener port keys = .ok [m]) ∧
      (∀ (h : Linux.Host) (mapOrder : List Int → List Int) (port : Int) (inodes : List Str),
        Linux.findSocketInodes h port = .ok inodes →
        mapOrder (Linux.pidSet h inodes) = keys →
        Linux.ResolvePort h mapOrder port = .ok [m]) ∧
      (∀ (h : Darwin.Host) (port : Int) (out : Str),
        h.lsofPort port = some out → Darwin.parsePIDs out = keys →
        Darwin.ResolvePort h port = .ok [m]) := by
  have hkne : keys ≠ [] := fun hk => hne (by rw [hk] at hperm; exact hperm.symm.eq_nil)
  have hkpos : ∀ p ∈ keys, 0 < p := fun p hp => hpos p (hperm.subset hp)
  obtain ⟨hm0, hmem, hleast⟩ := Linux.lowestPID_least keys hkne hkpos
  have hlinux : Linux.selectListener keys = .ok [Linux.lowestPID keys] := by
    unfold Linux.selectListener
    simp only [gt_iff_lt, if_pos hm0]
  obtain ⟨first, rest, hsort, hfmem, hfleast⟩ := Darwin.sortInts_head keys hkne
  have hsame : first = Linux.lowestPID keys :=
    le_antisymm (hfleast _ hmem) (hleast _ hfmem)
  have hdarwin : ∀ port, Darwin.selectListener port keys = .ok [Linux.lowestPID keys] := by
    intro port
    have hlen : keys.length ≠ 0 := fun h0 => hkne (List.length_eq_zero.mp h0)
    unfold Darwin.selectListener
    rw [if_neg hlen, hsort, hsame]
  refine ⟨Linux.lowestPID keys, hperm.subset hmem, fun p hp => hleast p (hperm.symm.subset hp),
    hlinux, hdarwin, ?_, ?_⟩
  · intro h mapOrder port inodes hin hord
    unfold Linux.ResolvePort
    rw [hin]
    simp only [hord, hlinux]
  · intro h port out hout hparse
    unfold Darwin.ResolvePort
    rw [hout]
    simp only [hparse, hdarwin]

/-- Witness of C3: the owners 50 and 4000, met in the order 4000, 50. -/
theorem ResolvePort_returns_smallest_witness :
    ∃ m, m ∈ ([50, 4000] : List Int) ∧ (∀ p ∈ ([50, 4000] : List Int), m ≤ p) ∧
      Linux.selectListener [4000, 50] = .ok [m] ∧
      (∀ port, Darwin.selectListener port [4000, 50] = .ok [m]) ∧
      (∀ (h : Linux.Host) (mapOrder : List Int → List Int) (port : Int) (inodes : List Str),
        Linux.findSocketInodes h port = .ok inodes →
        mapOrder (Linux.pidSet h inodes) = [4000, 50] →
        Linux.ResolvePort h mapOrder port = .ok [m]) ∧
      (∀ (h : Darwin.Host) (port : Int) (out : Str),
        h.lsofPort port = some out → Darwin.parsePIDs out = [4000, 50] →
        Darwin.ResolvePort h port = .ok [m]) :=
  ResolvePort_returns_smallest [50, 4000] [4000, 50] (by decide) (by decide) (by decide)

/-! ### The Windows service detector -/

/-- C4 (the code departs from the claim): when no process of the ancestry carries a service
name and the immediate parent of the target is `services.exe`, step 2 of
`detectWindowsService` already returns the generic verdict named `Service Control Manager`
with an empty `UnitFile`; the name derived from the target's command (step 3) is never
returned. -/
theorem Windows.detectWindowsService_parent_scm_generic (lower : Char → Char)
    (front : List Process) (parent target : Process)
    (hservice : ∀ p ∈ front ++ [parent, target], p.Service = [])
    (hparent : strings.ToLower lower parent.Command = "services.exe".toList) :
    Windows.detectWindowsService lower (front ++ [parent, target]) =
      .ok (some Windows.genericVerdict) := by
  have hfind : (front ++ [parent, target]).reverse.find? (fun p => p.Service ≠ []) = none := by
    rw [List.find?_eq_none]
    intro p hp
    have := hservice p (List.mem_reverse.mp hp)
    simp [this]
  have hany : (front ++ [parent, target]).any
      (fun p => strings.ToLower lower p.Command = "services.exe".toList) = true := by
    rw [List.any_eq_true]
    exact ⟨parent, by simp, by simp [hparent]⟩
  unfold Windows.detectWindowsService
  rw [hfind]
  simp only [hany, if_true]
  rfl

/-- Witness of C4: for `myservice.exe` under `services.exe` the verdict is the generic one,
not one named `myservice`. -/
theorem Windows.detectWindowsService_parent_scm_generic_witness :
    Windows.detectWindowsService Sample.asciiLower Sample.scmChild =
      .ok (some Windows.genericVerdict) :=
  Windows.detectWindowsService_parent_scm_generic Sample.asciiLower []
    { PID := 700, PPID := 600, Command := "services.exe".toList, Cmdline := [], Service := [] }
    { PID := 4242, PPID := 700, Command := "myservice.exe".toList, Cmdline := [], Service := [] }
    (by decide) (by decide)

/-! ### The process scan of the Linux name resolution -/

/-- C5 (the code departs from the claim): the processes 200 and 300 are accepted by the scan
for `nginx` through their short command name although the command line of the first contains
`witr` and that of the second contains `grep`. -/
theorem Linux.scanProcesses_accepts_witr_cmdline :
    Linux.scanProcesses Sample.asciiLower Sample.linuxHost "nginx".toList = [200, 300] ∧
    strings.Contains
      (strings.ToLower Sample.asciiLower (strings.ReplaceAll Sample.witrCmdline '\x00' ' '))
      "witr".toList = true ∧
    strings.Contains
      (strings.ToLower Sample.asciiLower (strings.ReplaceAll Sample.grepCmdline '\x00' ' '))
      "grep".toList = true := by
  decide

/-! ### The socket tables -/

/-- C10 (the code departs from the claim): the inode of an established connection (state `01`,
not `0A`) on local port 8080 is collected by `findSocketInodes`. -/
theorem Linux.findSocketInodes_collects_established :
    Linux.findSocketInodes Sample.linuxHostEstablished 8080 = .ok ["67890".toList] ∧
    (strings.Fields ((strings.Split Sample.tcpEstablished '\n').getD 1 [])).getD 3 [] =
      "01".toList := by
  decide

/-! ### The detector chain of Linux -/

/-- Slice indexing at the last position succeeds on a non-empty slice. -/
theorem index_last (xs : List Process) (hne : xs ≠ []) :
    ∃ x, index xs ((xs.length : Int) - 1) = some x := by
  have hlen : 0 < xs.length := List.length_pos.mpr hne
  unfold index
  rw [if_neg (by omega)]
  have hnat : ((xs.length : Int) - 1).toNat = xs.length - 1 := by omega
  rw [hnat]
  cases hg : xs.get? (xs.length - 1) with
  | some x => exact ⟨x, rfl⟩
  | none =>
    rw [List.get?_eq_none] at hg
    omega

/-- The systemd detector returns normally on every ancestry. -/
theorem Linux.detectSystemd_returns (sys : Linux.Systemd) (ancestry : List Process) :
    ∃ verdict, Linux.detectSystemd sys ancestry = .ok verdict := by
  unfold Linux.detectSystemd
  by_cases hany : ancestry.any (fun p =>
      decide (p.PID = 1) && (decide (p.Command = "systemd".toList) ||
        decide (p.Command = "init".toList))) = true
  · have hne : ancestry ≠ [] := by
      rintro rfl
      simp at hany
    obtain ⟨x, hx⟩ := index_last ancestry hne
    simp only [hany, Bool.not_true, Bool.false_eq_true, if_false, hx]
    exact ⟨_, rfl⟩
  · simp only [Bool.not_eq_true] at hany
    simp only [hany, Bool.not_false, if_true]
    exact ⟨_, rfl⟩

/-- C8: on Linux `Detect` returns a `Source` for every ancestry, the empty one included: the
verdict of the first detector of the chain container, supervisor, systemd, cron, shell that
produces one, whatever the later detectors say, and otherwise the fallback of type unknown
whose confidence is exactly 0.2. -/
theorem Linux.Detect_first_verdict (d : Linux.Detectors) (sys : Linux.Systemd)
    (ancestry : List Process) :
    Linux.Detect d sys ancestry =
        .ok (((Linux.detectorChain d sys).findSome? (fun detector => detector ancestry)).getD
          unknownSource) ∧
      unknownSource.Typ = .unknown ∧ unknownSource.Confidence = 0.2 := by
  refine ⟨?_, rfl, rfl⟩
  obtain ⟨verdict, hsys⟩ := Linux.detectSystemd_returns sys ancestry
  have hv : Linux.systemdVerdict sys ancestry = verdict := by
    unfold Linux.systemdVerdict
    rw [hsys]
  unfold Linux.Detect Linux.detectorChain
  simp only [List.findSome?_cons, List.findSome?_nil, hv, hsys]
  cases d.detectContainer ancestry with
  | some s1 => rfl
  | none =>
    cases d.detectSupervisor ancestry with
    | some s2 => rfl
    | none =>
      cases verdict with
      | some s3 => rfl
      | none =>
        cases d.detectCron ancestry with
        | some s4 => rfl
        | none =>
          cases d.detectShell ancestry with
          | some s5 => rfl
          | none => rfl

/-! ### PID targets -/

/-- The digit reader succeeds exactly on blocks of digits and then yields their value. -/
theorem strconv.parseDigits_eq_some (s : Str) (acc n : Nat) :
    strconv.parseDigits acc s = some n ↔
      (∀ c ∈ s, c.isDigit = true) ∧ n = s.foldl (fun a c => a * 10 + (c.toNat - 48)) acc := by
  induction s generalizing acc with
  | nil =>
    simp only [strconv.parseDigits, List.foldl_nil, List.not_mem_nil, false_implies,
      implies_true, true_and, Option.some.injEq]
    exact eq_comm
  | cons c s ih =>
    unfold strconv.parseDigits
    by_cases hc : c.isDigit = true
    · rw [if_pos hc, ih]
      simp [hc]
    · rw [if_neg hc]
      simp [hc]

/-- The unsigned reader succeeds exactly on non-empty blocks of digits. -/
theorem strconv.parseUnsigned_eq_some (s : Str) (n : Nat) :
    strconv.parseUnsigned s = some n ↔
      s ≠ [] ∧ (∀ c ∈ s, c.isDigit = true) ∧ n = digitsValue s := by
  unfold strconv.parseUnsigned digitsValue
  cases s with
  | nil => simp
  | cons c s =>
    simp only [List.isEmpty_cons, Bool.false_eq_true, if_false, ne_eq, not_false_eq_true,
      true_and, reduceCtorEq]
    exact strconv.parseDigits_eq_some (c :: s) 0 n

/-- Whatever `Atoi` accepts is an optionally signed decimal numeral of the result. -/
theorem strconv.Atoi_sound (value : Str) (n : Int) (h : strconv.Atoi value = some n) :
    IsNumeral value n := by
  unfold strconv.Atoi at h
  split at h
  · rename_i rest
    cases hp : strconv.parseUnsigned rest with
    | none => rw [hp] at h; simp at h
    | some m =>
      rw [hp] at h
      obtain ⟨hne, hdig, hval⟩ := (strconv.parseUnsigned_eq_some rest m).mp hp
      simp only at h
      split_ifs at h with hr
      cases h
      refine ⟨rest, hne, hdig, ?_, ?_, Or.inr ⟨rfl, by rw [hval]⟩⟩
      · have : (m : Int) ≤ 2 ^ 63 := by exact_mod_cast hr
        omega
      · have : (0 : Int) ≤ m := Int.natCast_nonneg m
        norm_num
        omega
  · rename_i rest
    cases hp : strconv.parseUnsigned rest with
    | none => rw [hp] at h; simp at h
    | some m =>
      rw [hp] at h
      obtain ⟨hne, hdig, hval⟩ := (strconv.parseUnsigned_eq_some rest m).mp hp
      simp only at h
      split_ifs at h with hr
      cases h
      refine ⟨rest, hne, hdig, ?_, ?_, Or.inl ⟨Or.inr rfl, by rw [hval]⟩⟩
      · have : (0 : Int) ≤ m := Int.natCast_nonneg m
        norm_num
        omega
      · exact_mod_cast hr
  · cases hp : strconv.parseUnsigned value with
    | none => rw [hp] at h; simp at h
    | some m =>
      rw [hp] at h
      obtain ⟨hne, hdig, hval⟩ := (strconv.parseUnsigned_eq_some value m).mp hp
      simp only at h
      split_ifs at h with hr
      cases h
      refine ⟨value, hne, hdig, ?_, ?_, Or.inl ⟨Or.inl rfl, by rw [hval]⟩⟩
      · have : (0 : Int) ≤ m := Int.natCast_nonneg m
        norm_num
        omega
      · exact_mod_cast hr

/-- Every optionally signed decimal numeral within range is accepted by `Atoi`. -/
theorem strconv.Atoi_complete (value : Str) (n : Int) (h : IsNumeral value n) :
    strconv.Atoi value = some n := by
  obtain ⟨digits, hne, hdig, hlo, hhi, hform⟩ := h
  have hp : strconv.parseUnsigned digits = some (digitsValue digits) :=
    (strconv.parseUnsigned_eq_some digits _).mpr ⟨hne, hdig, rfl⟩
  rcases hform with ⟨hv | hv, hn⟩ | ⟨hv, hn⟩
  · subst hv
    cases value with
    | nil => exact absurd rfl hne
    | cons c s =>
      have hc : c.isDigit = true := hdig c (List.mem_cons_self _ _)
      have hminus : c ≠ '-' := by
        rintro rfl
        exact absurd hc (by decide)
      have hplus : c ≠ '+' := by
        rintro rfl
        exact absurd hc (by decide)
      unfold strconv.Atoi
      split
      · rename_i heq
        exact absurd (List.cons.inj heq).1 hminus
      · rename_i heq
        exact absurd (List.cons.inj heq).1 hplus
      · rw [hp]
        have hr : digitsValue (c :: s) < 2 ^ 63 := by exact_mod_cast (hn ▸ hhi)
        simp only [if_pos hr, hn]
  · subst hv
    unfold strconv.Atoi
    simp only [hp]
    have hr : digitsValue digits < 2 ^ 63 := by exact_mod_cast (hn ▸ hhi)
    simp only [if_pos hr, hn]
  · subst hv
    unfold strconv.Atoi
    simp only [hp]
    have hr : digitsValue digits ≤ 2 ^ 63 := by
      have h1 : (digitsValue digits : Int) ≤ 2 ^ 63 := by
        rw [hn] at hlo
        linarith
      exact_mod_cast h1
    simp only [if_pos hr, hn]

/-- The PID target is not tested for its sign: `Resolve` hands on the texts `0` and `-5` as the
PIDs 0 and -5. -/
theorem Resolve_pid_accepts_signed :
    Resolve Sample.emptyPlatform { Typ := .PID, Value := "0".toList } = .ok [0] ∧
    Resolve Sample.emptyPlatform { Typ := .PID, Value := "-5".toList } = .ok [-5] := by
  decide

/-- On a PID target `Resolve` is `strconv.Atoi`: it returns `[n]` for an optionally signed
decimal numeral of `n` within the 64-bit range and the invalid-pid error for every other
text. -/
theorem Resolve_pid_numeral (platform : Platform) (value : Str) :
    (∃ n, Resolve platform { Typ := .PID, Value := value } = .ok [n] ∧ IsNumeral value n) ∨
    (Resolve platform { Typ := .PID, Value := value } = .error .invalidPid ∧
      ∀ n, ¬ IsNumeral value n) := by
  cases hp : strconv.Atoi value with
  | some n =>
    left
    refine ⟨n, ?_, strconv.Atoi_sound value n hp⟩
    simp only [Resolve, hp]
  | none =>
    right
    refine ⟨?_, ?_⟩
    · simp only [Resolve, hp]
    · intro n hn
      rw [strconv.Atoi_complete value n hn] at hp
      exact absurd hp (by simp)

/-- C9, counterexample: `Resolve` accepts the PID targets `+7` and `007` and returns `[7]`
for both, although neither text is the decimal text `7` of the number 7. -/
theorem Resolve_pid_accepts_plus_and_zeros :
    Resolve Sample.emptyPlatform { Typ := .PID, Value := "+7".toList } = .ok [7] ∧
    Resolve Sample.emptyPlatform { Typ := .PID, Value := "007".toList } = .ok [7] ∧
    strconv.Itoa 7 = "7".toList ∧
    strconv.Itoa 7 ≠ "+7".toList ∧
    strconv.Itoa 7 ≠ "007".toList := by
  decide

/-- C9, amended: for a target of type PID, every success of `Resolve` is a one-element
sequence; for every `n > 0`, `Resolve` returns `[n]` if and only if `Value` is an optional
`+` followed by one or more decimal digits of value `n` (leading zeros allowed) with
`n < 2^63`; `Resolve` fails with the invalid-pid error whenever `Value` is not an optionally
signed decimal numeral; and it never exits the program. Nothing is stated about a numeral of
zero or of a negative number. -/
theorem Resolve_pid_positive_numeral (platform : Platform) (value : Str) :
    (∀ pids, Resolve platform { Typ := .PID, Value := value } = .ok pids →
      ∃ n, pids = [n]) ∧
    (∀ n : Int, 0 < n →
      (Resolve platform { Typ := .PID, Value := value } = .ok [n] ↔
        ∃ digits : Str, digits ≠ [] ∧ (∀ c ∈ digits, c.isDigit = true) ∧
          (value = digits ∨ value = '+' :: digits) ∧ n = (digitsValue digits : Int) ∧
          n < (2 : Int) ^ 63)) ∧
    ((∀ n, ¬ IsNumeral value n) →
      Resolve platform { Typ := .PID, Value := value } = .error .invalidPid) ∧
    (∀ code out, Resolve platform { Typ := .PID, Value := value } ≠ .exit code out) := by
  have hres : Resolve platform { Typ := .PID, Value := value } =
      (match strconv.Atoi value with
        | none => .error .invalidPid
        | some pid => .ok [pid]) := rfl
  refine ⟨?_, ?_, ?_, ?_⟩
  · intro pids h
    rw [hres] at h
    cases hp : strconv.Atoi value with
    | none => rw [hp] at h; cases h
    | some m => rw [hp] at h; cases h; exact ⟨m, rfl⟩
  · intro n hn
    constructor
    · intro h
      rw [hres] at h
      cases hp : strconv.Atoi value with
      | none => rw [hp] at h; cases h
      | some m =>
        rw [hp] at h
        cases h
        obtain ⟨digits, hne, hdig, _, hhi, hform⟩ := strconv.Atoi_sound value n hp
        rcases hform with ⟨hv, hval⟩ | ⟨_, hval⟩
        · exact ⟨digits, hne, hdig, hv, hval, hhi⟩
        · have : (0 : Int) ≤ digitsValue digits := Int.natCast_nonneg _
          omega
    · rintro ⟨digits, hne, hdig, hv, hval, hhi⟩
      have hnum : IsNumeral value n :=
        ⟨digits, hne, hdig, by have := Int.natCast_nonneg (digitsValue digits); omega, hhi,
          Or.inl ⟨hv, hval⟩⟩
      rw [hres, strconv.Atoi_complete value n hnum]
  · intro hnot
    rw [hres]
    cases hp : strconv.Atoi value with
    | none => rfl
    | some m => exact absurd (strconv.Atoi_sound value m hp) (hnot m)
  · intro code out h
    rw [hres] at h
    cases hp : strconv.Atoi value with
    | none => rw [hp] at h; cases h
    | some m => rw [hp] at h; cases h

/-! ### The descendant tree -/

theorem ProcessTree.nodes_node (p : Process) (cs : List ProcessTree) :
    (ProcessTree.node p cs).nodes = ProcessTree.node p cs :: ProcessTree.nodesOfList cs := by
  simp [ProcessTree.nodes]

theorem ProcessTree.nodesOfList_cons (c : ProcessTree) (cs : List ProcessTree) :
    ProcessTree.nodesOfList (c :: cs) = c.nodes ++ ProcessTree.nodesOfList cs := by
  simp [ProcessTree.nodesOfList]

theorem ProcessTree.expandedOfList_nil : ProcessTree.expandedOfList [] = [] := by
  simp [ProcessTree.expandedOfList, ProcessTree.nodesOfList]

theorem ProcessTree.expandedOfList_cons (c : ProcessTree) (cs : List ProcessTree) :
    ProcessTree.expandedOfList (c :: cs) = c.expandedPIDs ++ ProcessTree.expandedOfList cs := by
  simp [ProcessTree.expandedOfList, ProcessTree.expandedPIDs, ProcessTree.nodesOfList_cons]

theorem ProcessTree.expandedPIDs_node (p : Process) (cs : List ProcessTree) :
    (ProcessTree.node p cs).expandedPIDs =
      (if cs.isEmpty then [] else [p.PID]) ++ ProcessTree.expandedOfList cs := by
  cases cs with
  | nil =>
    simp [ProcessTree.expandedPIDs, ProcessTree.expandedOfList, ProcessTree.nodes_node,
      ProcessTree.children, ProcessTree.nodesOfList]
  | cons c cs =>
    simp [ProcessTree.expandedPIDs, ProcessTree.expandedOfList, ProcessTree.nodes_node,
      ProcessTree.children, ProcessTree.proc]

/-- How a successful run of the children loop on a non-empty list decomposes. -/
theorem buildNodes_cons_some (build : List Int → Process → Option (ProcessTree × List Int))
    (v : List Int) (c : Process) (cs : List Process) (ns : List ProcessTree) (v2 : List Int)
    (h : buildNodes build v (c :: cs) = some (ns, v2)) :
    ∃ t v1 rest, build v c = some (t, v1) ∧ buildNodes build v1 cs = some (rest, v2) ∧
      ns = t :: rest := by
  unfold buildNodes at h
  cases h1 : build v c with
  | none => rw [h1] at h; simp at h
  | some r1 =>
    obtain ⟨t, v1⟩ := r1
    rw [h1] at h
    simp only at h
    cases h2 : buildNodes build v1 cs with
    | none => rw [h2] at h; simp at h
    | some r2 =>
      obtain ⟨rest, v3⟩ := r2
      rw [h2] at h
      simp only [Option.some.injEq, Prod.mk.injEq] at h
      exact ⟨t, v1, rest, rfl, by rw [← h.2]; exact h2, h.1.symm⟩

/-- How a successful call of `buildTree` decomposes: the PID was visited and the node is a
leaf, or the PID is marked and the node holds the trees of the indexed children. -/
theorem buildTree_some (idx : Int → List Process) (fuel : Nat) (v : List Int) (p : Process)
    (t : ProcessTree) (v2 : List Int) (h : buildTree idx fuel v p = some (t, v2)) :
    (p.PID ∈ v ∧ t = .node p [] ∧ v2 = v) ∨
    (p.PID ∉ v ∧ ∃ f ns, fuel = f + 1 ∧
      buildNodes (buildTree idx f) (p.PID :: v) (idx p.PID) = some (ns, v2) ∧
      t = .node p ns) := by
  unfold buildTree at h
  by_cases hv : p.PID ∈ v
  · rw [if_pos hv] at h
    simp only [Option.some.injEq, Prod.mk.injEq] at h
    exact Or.inl ⟨hv, h.1.symm, h.2.symm⟩
  · rw [if_neg hv] at h
    right
    refine ⟨hv, ?_⟩
    cases fuel with
    | zero => simp at h
    | succ f =>
      simp only at h
      cases hn : buildNodes (buildTree idx f) (p.PID :: v) (idx p.PID) with
      | none => rw [hn] at h; simp at h
      | some r =>
        obtain ⟨ns, v3⟩ := r
        rw [hn] at h
        simp only [Option.some.injEq, Prod.mk.injEq] at h
        exact ⟨f, ns, rfl, by rw [← h.2]; exact hn, h.1.symm⟩

/-- The children loop preserves what the calls it makes guarantee: the trees are those of the
children in order, every node agrees with the index, the marks only grow and stay free of
duplicates, and the PIDs of the nodes with children are new marks, each met once. -/
theorem buildNodes_spec (idx : Int → List Process)
    (build : List Int → Process → Option (ProcessTree × List Int))
    (hb : ∀ v c t v2, build v c = some (t, v2) →
      t.proc = c ∧ (∀ n ∈ t.nodes, n.childrenFrom idx) ∧ v ⊆ v2 ∧ (v.Nodup → v2.Nodup) ∧
        t.expandedPIDs.Nodup ∧ ∀ x ∈ t.expandedPIDs, x ∈ v2 ∧ x ∉ v)
    (cs : List Process) :
    ∀ (v : List Int) (ns : List ProcessTree) (v2 : List Int),
      buildNodes build v cs = some (ns, v2) →
      ns.map ProcessTree.proc = cs ∧ (∀ n ∈ ProcessTree.nodesOfList ns, n.childrenFrom idx) ∧
        v ⊆ v2 ∧ (v.Nodup → v2.Nodup) ∧ (ProcessTree.expandedOfList ns).Nodup ∧
        ∀ x ∈ ProcessTree.expandedOfList ns, x ∈ v2 ∧ x ∉ v := by
  induction cs with
  | nil =>
    intro v ns v2 h
    simp only [buildNodes, Option.some.injEq, Prod.mk.injEq] at h
    obtain ⟨rfl, rfl⟩ := h
    simp [ProcessTree.nodesOfList, ProcessTree.expandedOfList_nil]
  | cons c cs ih =>
    intro v ns v2 h
    obtain ⟨t, v1, rest, h1, h2, rfl⟩ := buildNodes_cons_some build v c cs ns v2 h
    obtain ⟨a1, a2, a3, a4, a5, a6⟩ := hb v c t v1 h1
    obtain ⟨b1, b2, b3, b4, b5, b6⟩ := ih v1 rest v2 h2
    refine ⟨by simp [a1, b1], ?_, fun x hx => b3 (a3 hx), fun hv => b4 (a4 hv), ?_, ?_⟩
    · intro n hn
      rw [ProcessTree.nodesOfList_cons, List.mem_append] at hn
      rcases hn with hn | hn
      · exact a2 n hn
      · exact b2 n hn
    · rw [ProcessTree.expandedOfList_cons, List.nodup_append]
      refine ⟨a5, b5, ?_⟩
      intro x hx1 hx2
      exact (b6 x hx2).2 (a6 x hx1).1
    · intro x hx
      rw [ProcessTree.expandedOfList_cons, List.mem_append] at hx
      rcases hx with hx | hx
      · exact ⟨b3 (a6 x hx).1, (a6 x hx).2⟩
      · exact ⟨(b6 x hx).1, fun hxv => (b6 x hx).2 (a3 hxv)⟩

/-- What a successful call of `buildTree` guarantees, for every recursion budget. -/
theorem buildTree_spec (idx : Int → List Process) (fuel : Nat) :
    ∀ (v : List Int) (p : Process) (t : ProcessTree) (v2 : List Int),
      buildTree idx fuel v p = some (t, v2) →
      t.proc = p ∧ (∀ n ∈ t.nodes, n.childrenFrom idx) ∧ v ⊆ v2 ∧ (v.Nodup → v2.Nodup) ∧
        t.expandedPIDs.Nodup ∧ ∀ x ∈ t.expandedPIDs, x ∈ v2 ∧ x ∉ v := by
  have leaf : ∀ (v : List Int) (p : Process),
      (ProcessTree.node p []).proc = p ∧
      (∀ n ∈ (ProcessTree.node p []).nodes, n.childrenFrom idx) ∧ v ⊆ v ∧
      (v.Nodup → v.Nodup) ∧ (ProcessTree.node p []).expandedPIDs.Nodup ∧
      ∀ x ∈ (ProcessTree.node p []).expandedPIDs, x ∈ v ∧ x ∉ v := by
    intro v p
    refine ⟨rfl, ?_, fun x hx => hx, fun hv => hv, ?_, ?_⟩
    · intro n hn
      rw [ProcessTree.nodes_node] at hn
      simp only [ProcessTree.nodesOfList, List.mem_singleton] at hn
      subst hn
      exact Or.inl rfl
    · simp [ProcessTree.expandedPIDs_node, ProcessTree.expandedOfList_nil]
    · simp [ProcessTree.expandedPIDs_node, ProcessTree.expandedOfList_nil]
  induction fuel with
  | zero =>
    intro v p t v2 h
    rcases buildTree_some idx 0 v p t v2 h with ⟨_, rfl, rfl⟩ | ⟨_, f, ns, hf, _, _⟩
    · exact leaf _ _
    · omega
  | succ g ih =>
    intro v p t v2 h
    rcases buildTree_some idx (g + 1) v p t v2 h with ⟨_, rfl, rfl⟩ | ⟨hv, f, ns, hf, hn, rfl⟩
    · exact leaf _ _
    · have hfg : f = g := by omega
      subst hfg
      obtain ⟨b1, b2, b3, b4, b5, b6⟩ :=
        buildNodes_spec idx (buildTree idx f) ih (idx p.PID) (p.PID :: v) ns v2 hn
      refine ⟨rfl, ?_, fun x hx => b3 (List.mem_cons_of_mem _ hx),
        fun hnd => b4 (List.nodup_cons.mpr ⟨hv, hnd⟩), ?_, ?_⟩
      · intro n hmem
        rw [ProcessTree.nodes_node, List.mem_cons] at hmem
        rcases hmem with rfl | hmem
        · exact Or.inr b1
        · exact b2 n hmem
      · rw [ProcessTree.expandedPIDs_node, List.nodup_append]
        refine ⟨by split_ifs <;> simp, b5, ?_⟩
        intro x hx1 hx2
        have hxp : x = p.PID := by
          split_ifs at hx1
          · simp at hx1
          · simpa using hx1
        exact (b6 x hx2).2 (by rw [hxp]; exact List.mem_cons_self _ _)
      · intro x hx
        rw [ProcessTree.expandedPIDs_node, List.mem_append] at hx
        rcases hx with hx | hx
        · have hxp : x = p.PID := by
            split_ifs at hx
            · simp at hx
            · simpa using hx
          rw [hxp]
          exact ⟨b3 (List.mem_cons_self _ _), hv⟩
        · exact ⟨(b6 x hx).1, fun hxv => (b6 x hx).2 (List.mem_cons_of_mem _ hxv)⟩

/-- The children loop returns when every call it makes does. -/
theorem buildNodes_returns (build : List Int → Process → Option (ProcessTree × List Int))
    (cs : List Process) (v0 : List Int)
    (hb : ∀ v c, c ∈ cs → v0 ⊆ v → ∃ t v2, build v c = some (t, v2) ∧ v ⊆ v2) :
    ∀ v, v0 ⊆ v → ∃ ns v2, buildNodes build v cs = some (ns, v2) ∧ v ⊆ v2 := by
  induction cs with
  | nil =>
    intro v _
    exact ⟨[], v, rfl, fun x hx => hx⟩
  | cons c cs ih =>
    intro v hv
    obtain ⟨t, v1, h1, hsub1⟩ := hb v c (List.mem_cons_self _ _) hv
    obtain ⟨ns, v2, h2, hsub2⟩ :=
      ih (fun w d hd hw => hb w d (List.mem_cons_of_mem _ hd) hw) v1
        (fun x hx => hsub1 (hv hx))
    refine ⟨t :: ns, v2, ?_, fun x hx => hsub2 (hsub1 hx)⟩
    simp only [buildNodes, h1, h2]

/-- A call of `buildTree` returns when the budget is at least the number of PIDs of the
universe `U` not yet marked; `U` holds the PID of the call and those of all indexed children. -/
theorem buildTree_returns (idx : Int → List Process) (U : Finset Int)
    (hidx : ∀ pid c, c ∈ idx pid → c.PID ∈ U) (fuel : Nat) :
    ∀ (v : List Int) (p : Process), p.PID ∈ U → (U \ v.toFinset).card ≤ fuel →
      ∃ t v2, buildTree idx fuel v p = some (t, v2) ∧ v ⊆ v2 := by
  have visitedCase : ∀ (g : Nat) (v : List Int) (p : Process), p.PID ∈ v →
      ∃ t v2, buildTree idx g v p = some (t, v2) ∧ v ⊆ v2 := by
    intro g v p hv
    refine ⟨.node p [], v, ?_, fun x hx => hx⟩
    unfold buildTree
    rw [if_pos hv]
  induction fuel with
  | zero =>
    intro v p hp hcard
    have hempty : U \ v.toFinset = ∅ := Finset.card_eq_zero.mp (Nat.le_zero.mp hcard)
    have hv : p.PID ∈ v := by
      by_contra hnot
      have hmem : p.PID ∈ U \ v.toFinset :=
        Finset.mem_sdiff.mpr ⟨hp, fun hx => hnot (List.mem_toFinset.mp hx)⟩
      rw [hempty] at hmem
      exact absurd hmem (Finset.not_mem_empty _)
    exact visitedCase 0 v p hv
  | succ g ih =>
    intro v p hp hcard
    by_cases hv : p.PID ∈ v
    · exact visitedCase (g + 1) v p hv
    · have hlt : (U \ (p.PID :: v).toFinset).card < (U \ v.toFinset).card := by
        apply Finset.card_lt_card
        rw [Finset.ssubset_iff_of_subset]
        · refine ⟨p.PID, Finset.mem_sdiff.mpr ⟨hp, fun hx => hv (List.mem_toFinset.mp hx)⟩, ?_⟩
          intro hx
          exact (Finset.mem_sdiff.mp hx).2 (List.mem_toFinset.mpr (List.mem_cons_self _ _))
        · intro x hx
          rw [Finset.mem_sdiff] at hx ⊢
          exact ⟨hx.1, fun hxv => hx.2 (List.mem_toFinset.mpr
            (List.mem_cons_of_mem _ (List.mem_toFinset.mp hxv)))⟩
      have hb : ∀ w c, c ∈ idx p.PID → (p.PID :: v) ⊆ w →
          ∃ t v2, buildTree idx g w c = some (t, v2) ∧ w ⊆ v2 := by
        intro w c hc hw
        apply ih w c (hidx p.PID c hc)
        have hsub : U \ w.toFinset ⊆ U \ (p.PID :: v).toFinset := by
          intro x hx
          rw [Finset.mem_sdiff] at hx ⊢
          exact ⟨hx.1, fun hxv => hx.2 (List.mem_toFinset.mpr (hw (List.mem_toFinset.mp hxv)))⟩
        have := Finset.card_le_card hsub
        omega
      obtain ⟨ns, v2, hn, hsub⟩ :=
        buildNodes_returns (buildTree idx g) (idx p.PID) (p.PID :: v) hb (p.PID :: v)
          (fun x hx => hx)
      refine ⟨.node p ns, v2, ?_, fun x hx => hsub (List.mem_cons_of_mem _ hx)⟩
      unfold buildTree
      rw [if_neg hv]
      simp only [hn]

/-- The children loop is monotone in the function it calls. -/
theorem buildNodes_mono (build build2 : List Int → Process → Option (ProcessTree × List Int))
    (hbb : ∀ v c r, build v c = some r → build2 v c = some r) (cs : List Process) :
    ∀ v r, buildNodes build v cs = some r → buildNodes build2 v cs = some r := by
  induction cs with
  | nil =>
    intro v r h
    simpa [buildNodes] using h
  | cons c cs ih =>
    intro v r h
    obtain ⟨ns, v2⟩ := r
    obtain ⟨t, v1, rest, h1, h2, rfl⟩ := buildNodes_cons_some build v c cs ns v2 h
    simp only [buildNodes, hbb v c _ h1, ih v1 _ h2]

/-- A result of `buildTree` does not change when the budget grows. -/
theorem buildTree_fuel_add (idx : Int → List Process) (fuel : Nat) :
    ∀ (extra : Nat) (v : List Int) (p : Process) (r : ProcessTree × List Int),
      buildTree idx fuel v p = some r → buildTree idx (fuel + extra) v p = some r := by
  induction fuel with
  | zero =>
    intro extra v p r h
    obtain ⟨t, v2⟩ := r
    rcases buildTree_some idx 0 v p t v2 h with ⟨hv, rfl, rfl⟩ | ⟨_, f, ns, hf, _, _⟩
    · unfold buildTree
      rw [if_pos hv]
    · omega
  | succ g ih =>
    intro extra v p r h
    obtain ⟨t, v2⟩ := r
    rcases buildTree_some idx (g + 1) v p t v2 h with ⟨hv, rfl, rfl⟩ | ⟨hv, f, ns, hf, hn, rfl⟩
    · unfold buildTree
      rw [if_pos hv]
    · have hfg : f = g := by omega
      subst hfg
      have hn2 := buildNodes_mono (buildTree idx f) (buildTree idx (f + extra))
        (fun w c r hr => ih extra w c r hr) (idx p.PID) (p.PID :: v) _ hn
      have hshape : f + 1 + extra = (f + extra) + 1 := by omega
      rw [hshape]
      unfold buildTree
      rw [if_neg hv]
      simp only [hn2]

/-- Each group of the sorted index is in ascending PID order. -/
theorem sortedIndex_sorted (processes : List Process) (ppid : Int) :
    ((sortedIndex processes ppid).map (fun p => p.PID)).Sorted (fun a b => a ≤ b) := by
  haveI : IsTotal Process (fun a b => a.PID ≤ b.PID) := ⟨fun a b => le_total a.PID b.PID⟩
  haveI : IsTrans Process (fun a b => a.PID ≤ b.PID) := ⟨fun _ _ _ hab hbc => le_trans hab hbc⟩
  have hs : (sortedIndex processes ppid).Sorted (fun a b => a.PID ≤ b.PID) :=
    List.sorted_insertionSort _ _
  exact List.pairwise_map.mpr hs

/-- Each group of the sorted index holds processes of the snapshot with the PPID of the
group. -/
theorem sortedIndex_mem (processes : List Process) (ppid : Int) (c : Process)
    (hc : c ∈ sortedIndex processes ppid) : c ∈ processes ∧ c.PPID = ppid := by
  have hperm : (sortedIndex processes ppid).Perm (indexByParent processes ppid) :=
    List.perm_insertionSort _ _
  have hmem := hperm.subset hc
  unfold indexByParent at hmem
  rw [List.mem_filter] at hmem
  exact ⟨hmem.1, by simpa using hmem.2⟩

/-- On the empty marks `buildTree` returns within the budget of one expansion per snapshot entry
plus one, whatever the snapshot and the root. -/
theorem buildTree_root_returns (processes : List Process) (root : Process) :
    ∃ t visited,
      buildTree (sortedIndex processes) (processes.length + 1) [] root = some (t, visited) := by
  have hidx : ∀ pid c, c ∈ sortedIndex processes pid →
      c.PID ∈ (root.PID :: processes.map (fun p => p.PID)).toFinset := by
    intro pid c hc
    rw [List.mem_toFinset]
    exact List.mem_cons_of_mem _ (List.mem_map.mpr ⟨c, (sortedIndex_mem processes pid c hc).1, rfl⟩)
  have hcard : ((root.PID :: processes.map (fun p => p.PID)).toFinset \
      ([] : List Int).toFinset).card ≤ processes.length + 1 := by
    refine le_trans (Finset.card_le_card Finset.sdiff_subset) ?_
    refine le_trans (List.toFinset_card_le _) ?_
    simp
  obtain ⟨t, visited, hbuild, _⟩ :=
    buildTree_returns (sortedIndex processes) _ hidx (processes.length + 1) [] root
      (List.mem_toFinset.mpr (List.mem_cons_self _ _)) hcard
  exact ⟨t, visited, hbuild⟩

/-- The outcome of `ResolveDescendants` on a snapshot, from the result of `buildTree`. -/
theorem ResolveDescendants_of_buildTree (processes : List Process) (root : Process)
    (t : ProcessTree) (visited : List Int)
    (hbuild : buildTree (sortedIndex processes) (processes.length + 1) [] root =
      some (t, visited)) :
    ResolveDescendants (.ok processes) root =
      if root.PID ≤ 0 then .error .invalidPid else .ok (some t) := by
  unfold ResolveDescendants
  simp only [hbuild, Option.map_some']

/-- C6: for every snapshot and every root with a positive PID, `ResolveDescendants` returns a
tree, rooted at the given process, in which the children of every node are in ascending PID
order and the process of every child has the PID of its parent node as PPID. -/
theorem ResolveDescendants_children_ordered (processes : List Process) (root : Process)
    (hroot : 0 < root.PID) :
    ∃ t, ResolveDescendants (.ok processes) root = .ok (some t) ∧ t.proc = root ∧
      ∀ n ∈ t.nodes,
        (n.children.map (fun c => c.proc.PID)).Sorted (fun a b => a ≤ b) ∧
        ∀ c ∈ n.children, c.proc.PPID = n.proc.PID := by
  obtain ⟨t, visited, hbuild⟩ := buildTree_root_returns processes root
  have hres := ResolveDescendants_of_buildTree processes root t visited hbuild
  rw [if_neg (by omega)] at hres
  obtain ⟨hproc, hnodes, _⟩ := buildTree_spec (sortedIndex processes) _ [] root t visited hbuild
  refine ⟨t, hres, hproc, ?_⟩
  intro n hn
  rcases hnodes n hn with hleaf | hgroup
  · rw [hleaf]
    exact ⟨List.sorted_nil, fun c hc => absurd hc (List.not_mem_nil c)⟩
  · constructor
    · have hmap : n.children.map (fun c => c.proc.PID) =
          (n.children.map ProcessTree.proc).map (fun p => p.PID) := by
        rw [List.map_map]
        rfl
      rw [hmap, hgroup]
      exact sortedIndex_sorted processes n.proc.PID
    · intro c hc
      have hmem : c.proc ∈ sortedIndex processes n.proc.PID := by
        rw [← hgroup]
        exact List.mem_map.mpr ⟨c, hc, rfl⟩
      exact (sortedIndex_mem processes n.proc.PID c.proc hmem).2

/-- Witness of C6: the cyclic sample snapshot, whose root lists its children 20 and 10 in that
order. -/
theorem ResolveDescendants_children_ordered_witness :
    ∃ t, ResolveDescendants (.ok Sample.cyclicSnapshot) Sample.rootProcess = .ok (some t) ∧
      t.proc = Sample.rootProcess ∧
      ∀ n ∈ t.nodes,
        (n.children.map (fun c => c.proc.PID)).Sorted (fun a b => a ≤ b) ∧
        ∀ c ∈ n.children, c.proc.PPID = n.proc.PID :=
  ResolveDescendants_children_ordered Sample.cyclicSnapshot Sample.rootProcess (by decide)

/-- C7: on every snapshot, cyclic ones included, and for every root, `buildTree` returns, with
the same result for every recursion budget from the snapshot length plus one on, so that
`ResolveDescendants` returns (the tree, or the invalid-pid error for a root PID that is not
positive); every PID is marked, hence expanded, at most once; the PIDs of the nodes that
have children are pairwise distinct; and a call on a PID already marked yields a node
without children and leaves the marks as they are. -/
theorem ResolveDescendants_terminates (processes : List Process) (root : Process) :
    ∃ t visited,
      (∀ extra, buildTree (sortedIndex processes) (processes.length + 1 + extra) [] root =
        some (t, visited)) ∧
      ResolveDescendants (.ok processes) root =
        (if root.PID ≤ 0 then .error .invalidPid else .ok (some t)) ∧
      visited.Nodup ∧ t.expandedPIDs.Nodup ∧
      ∀ (fuel : Nat) (v : List Int) (p : Process), p.PID ∈ v →
        buildTree (sortedIndex processes) fuel v p = some (.node p [], v) := by
  obtain ⟨t, visited, hbuild⟩ := buildTree_root_returns processes root
  obtain ⟨_, _, _, hnodup, hexp, _⟩ :=
    buildTree_spec (sortedIndex processes) _ [] root t visited hbuild
  refine ⟨t, visited, ?_, ResolveDescendants_of_buildTree processes root t visited hbuild,
    hnodup List.nodup_nil, hexp, ?_⟩
  · intro extra
    exact buildTree_fuel_add (sortedIndex processes) _ extra [] root _ hbuild
  · intro fuel v p hv
    unfold buildTree
    rw [if_pos hv]

/-! ### A service match on Linux -/

/-- C11: on Linux, when the service lookup yields a main PID `s > 0` and the process scan
finds nothing or only that same PID, the merging step, and so `ResolveName`, returns exactly
the one-element sequence `[s]`: no second candidate and no ambiguous stop. -/
theorem Linux.ResolveName_service_alone (name : Str) (procPIDs : List Int) (s : Int)
    (hs : 0 < s) (hscan : ∀ p ∈ procPIDs, p = s) :
    Linux.resolveCandidates name procPIDs s = .ok [s] ∧
    ∀ (lower : Char → Char) (h : Linux.Host), Linux.servicePID h name = s →
      Linux.scanProcesses lower h name = procPIDs → Linux.ResolveName lower h name = .ok [s] := by
  have hres : Linux.resolveCandidates name procPIDs s = .ok [s] := by
    have hsub : ((if s > 0 then [s] else []) ++ procPIDs).toFinset ⊆ {s} := by
      intro x hx
      rw [List.mem_toFinset, List.mem_append] at hx
      rw [Finset.mem_singleton]
      rcases hx with hx | hx
      · rw [if_pos hs] at hx
        simpa using hx
      · exact hscan x hx
    have hcard : (Linux.uniquePIDs s procPIDs).length ≤ 1 := by
      rw [Linux.uniquePIDs_length]
      exact le_trans (Finset.card_le_card hsub) (by simp)
    unfold Linux.resolveCandidates
    rw [if_neg (by omega), if_pos hs]
  refine ⟨hres, ?_⟩
  intro lower h hsvc hsc
  unfold Linux.ResolveName
  rw [hsvc, hsc]
  exact hres

/-- Witness of C11: the service PID 100 with the scan finding the same PID 100. -/
theorem Linux.ResolveName_service_alone_witness :
    Linux.resolveCandidates "nginx".toList [100] 100 = .ok [100] ∧
    ∀ (lower : Char → Char) (h : Linux.Host), Linux.servicePID h "nginx".toList = 100 →
      Linux.scanProcesses lower h "nginx".toList = [100] →
      Linux.ResolveName lower h "nginx".toList = .ok [100] :=
  Linux.ResolveName_service_alone "nginx".toList [100] 100 (by decide) (by decide)

/-! ### Direct children -/

/-- C13: for `pid ≤ 0` `ResolveChildren` fails with the invalid-pid error; for `pid > 0` it
returns the processes of the snapshot whose PPID is `pid`, each as often as the snapshot
lists it and no other process, in ascending PID order. -/
theorem ResolveChildren_exact (snapshot : Except Err (List Process)) (processes : List Process)
    (pid : Int) :
    (pid ≤ 0 → ResolveChildren snapshot pid = .error .invalidPid) ∧
    (0 < pid → ∃ cs, ResolveChildren (.ok processes) pid = .ok cs ∧
      (∀ p, cs.count p = if p.PPID = pid then processes.count p else 0) ∧
      (cs.map (fun p => p.PID)).Sorted (fun a b => a ≤ b)) := by
  constructor
  · intro hpid
    unfold ResolveChildren
    rw [if_pos hpid]
  · intro hpid
    refine ⟨sortProcesses (processes.filter (fun p => p.PPID = pid)), ?_, ?_, ?_⟩
    · unfold ResolveChildren
      rw [if_neg (by omega)]
    · intro p
      have hperm : (sortProcesses (processes.filter (fun p => p.PPID = pid))).Perm
          (processes.filter (fun p => p.PPID = pid)) := List.perm_insertionSort _ _
      rw [hperm.count_eq]
      by_cases hp : p.PPID = pid
      · rw [if_pos hp]
        exact List.count_filter (by simpa using hp)
      · rw [if_neg hp]
        apply List.count_eq_zero_of_not_mem
        intro hmem
        rw [List.mem_filter] at hmem
        exact hp (by simpa using hmem.2)
    · exact sortedIndex_sorted processes pid

/-! ### Self and parent in the process scan -/

/-- The cmdline test yields no other PID than the one of the entry. -/
theorem Linux.scanCmdline_some (lower : Char → Char) (lowerName : Str) (pid q : Int) (cmdline : Option Str)
    (h : Linux.scanCmdline lower lowerName pid cmdline = some q) : q = pid := by
  unfold Linux.scanCmdline at h
  cases cmdline with
  | none => simp at h
  | some raw =>
    simp only at h
    split_ifs at h
    simpa using h.symm

/-- A PID the Linux scan accepts is neither the resolver's own nor its parent's. -/
theorem Linux.scanEntry_some (lower : Char → Char) (lowerName : Str) (selfPid parentPid q : Int)
    (e : Linux.ProcEntry) (h : Linux.scanEntry lower lowerName selfPid parentPid e = some q) :
    q ≠ selfPid ∧ q ≠ parentPid := by
  unfold Linux.scanEntry at h
  cases hname : strconv.Atoi e.name with
  | none => rw [hname] at h; simp at h
  | some pid =>
    rw [hname] at h
    simp only at h
    split_ifs at h with h1 h2
    have hq : q = pid := by
      cases hcomm : e.comm with
      | none =>
        rw [hcomm] at h
        exact Linux.scanCmdline_some _ _ _ _ _ h
      | some comm =>
        rw [hcomm] at h
        simp only at h
        split_ifs at h
        · simpa using h.symm
        · exact Linux.scanCmdline_some _ _ _ _ _ h
    rw [hq]
    exact ⟨fun hc => h2 (Or.inl hc), fun hc => h2 (Or.inr hc)⟩

/-- A PID the macOS scan accepts is neither the resolver's own nor its parent's. -/
theorem Darwin.scanLine_some (lower : Char → Char) (lowerName : Str) (selfPid parentPid q : Int)
    (line : Str)
    (h : Darwin.scanLine lower lowerName selfPid parentPid line = some q) :
    q ≠ selfPid ∧ q ≠ parentPid := by
  unfold Darwin.scanLine at h
  split at h
  · rename_i pidField commField argFields _
    cases hpid : strconv.Atoi pidField with
    | none => rw [hpid] at h; simp at h
    | some pid =>
      rw [hpid] at h
      simp only at h
      split_ifs at h with h1
      have hq : q = pid := by simpa using h.symm
      rw [hq]
      exact ⟨fun hc => h1 (Or.inl hc), fun hc => h1 (Or.inr hc)⟩
  · simp at h

/-- C17: on Linux and on macOS the process scan of `ResolveName` never accepts the resolver's
own PID or the PID of its parent, whatever the command names and command lines are. -/
theorem scanProcesses_excludes_self_and_parent (lower : Char → Char) (hl : Linux.Host)
    (hd : Darwin.Host) (name : Str) :
    hl.selfPid ∉ Linux.scanProcesses lower hl name ∧
    hl.parentPid ∉ Linux.scanProcesses lower hl name ∧
    hd.selfPid ∉ Darwin.scanProcesses lower hd name ∧
    hd.parentPid ∉ Darwin.scanProcesses lower hd name := by
  have linux : ∀ q, q ∈ Linux.scanProcesses lower hl name → q ≠ hl.selfPid ∧ q ≠ hl.parentPid := by
    intro q hq
    unfold Linux.scanProcesses at hq
    rw [List.mem_filterMap] at hq
    obtain ⟨e, _, he⟩ := hq
    exact Linux.scanEntry_some _ _ _ _ _ e he
  have darwin : ∀ q, q ∈ Darwin.scanProcesses lower hd name → q ≠ hd.selfPid ∧ q ≠ hd.parentPid := by
    intro q hq
    unfold Darwin.scanProcesses at hq
    rw [List.mem_filterMap] at hq
    obtain ⟨line, _, hline⟩ := hq
    exact Darwin.scanLine_some _ _ _ _ _ line hline
  exact ⟨fun hm => (linux _ hm).1 rfl, fun hm => (linux _ hm).2 rfl,
    fun hm => (darwin _ hm).1 rfl, fun hm => (darwin _ hm).2 rfl⟩

/-! ### A named Windows service -/

/-- C15: when some process of the ancestry has a non-empty service name,
`detectWindowsService` returns the windows-service verdict for the last such process of the
chain (the one nearest the target): the name is its service name, the unit file is
`HKLM\SYSTEM\CurrentControlSet\Services\` followed by that name, and the details are
`manager = services.exe` and `service` = that name. -/
theorem Windows.detectWindowsService_named_service (lower : Char → Char)
    (ancestry : List Process)
    (hsome : ∃ p ∈ ancestry, p.Service ≠ []) :
    ∃ front p back, ancestry = front ++ p :: back ∧ p.Service ≠ [] ∧
      (∀ q ∈ back, q.Service = []) ∧
      Windows.detectWindowsService lower ancestry =
        .ok (some (Windows.serviceVerdict p.Service)) ∧
      (Windows.serviceVerdict p.Service).Typ = .windowsService ∧
      (Windows.serviceVerdict p.Service).Name = p.Service ∧
      (Windows.serviceVerdict p.Service).UnitFile =
        "HKLM\\SYSTEM\\CurrentControlSet\\Services\\".toList ++ p.Service ∧
      (Windows.serviceVerdict p.Service).Details =
        [("manager".toList, "services.exe".toList), ("service".toList, p.Service)] := by
  cases hf : ancestry.reverse.find? (fun p => p.Service ≠ []) with
  | none =>
    rw [List.find?_eq_none] at hf
    obtain ⟨p, hp, hs⟩ := hsome
    have := hf p (List.mem_reverse.mpr hp)
    simp [hs] at this
  | some p =>
    obtain ⟨hp, as, bs, hrev, has⟩ := List.find?_eq_some.mp hf
    have hanc : ancestry = bs.reverse ++ p :: as.reverse := by
      have h2 := congrArg List.reverse hrev
      simpa using h2
    refine ⟨bs.reverse, p, as.reverse, hanc, by simpa using hp, ?_, ?_, rfl, rfl, rfl, rfl⟩
    · intro q hq
      have := has q (List.mem_reverse.mp hq)
      simpa using this
    · unfold Windows.detectWindowsService
      rw [hf]
      rfl

/-- Witness of C15: in the sample ancestry `Spooler` is the service name nearest the
target. -/
theorem Windows.detectWindowsService_named_service_witness :
    (∃ front p back, Sample.serviceAncestry = front ++ p :: back ∧ p.Service ≠ [] ∧
      (∀ q ∈ back, q.Service = []) ∧
      Windows.detectWindowsService Sample.asciiLower Sample.serviceAncestry =
        .ok (some (Windows.serviceVerdict p.Service)) ∧
      (Windows.serviceVerdict p.Service).Typ = .windowsService ∧
      (Windows.serviceVerdict p.Service).Name = p.Service ∧
      (Windows.serviceVerdict p.Service).UnitFile =
        "HKLM\\SYSTEM\\CurrentControlSet\\Services\\".toList ++ p.Service ∧
      (Windows.serviceVerdict p.Service).Details =
        [("manager".toList, "services.exe".toList), ("service".toList, p.Service)]) ∧
    Windows.detectWindowsService Sample.asciiLower Sample.serviceAncestry =
      .ok (some (Windows.serviceVerdict "Spooler".toList)) :=
  ⟨Windows.detectWindowsService_named_service Sample.asciiLower Sample.serviceAncestry
    (by decide), by decide⟩

/-! ### The systemd detector -/

/-- Slice indexing at the last position yields the last element. -/
theorem index_last_eq (xs : List Process) (hne : xs ≠ []) :
    index xs ((xs.length : Int) - 1) = xs.getLast? := by
  have hlen : 0 < xs.length := List.length_pos.mpr hne
  unfold index
  rw [if_neg (by omega)]
  have hnat : ((xs.length : Int) - 1).toNat = xs.length - 1 := by omega
  rw [hnat, List.getLast?_eq_getElem?, List.get?_eq_getElem?]

/-- C16: `detectSystemd` yields a verdict exactly when some process of the ancestry has PID 1
and the command name `systemd` or `init`; the verdict then has the type systemd and the name
`systemd`, and its unit file and description are those looked up for the PID of the last
element of the chain. -/
theorem Linux.detectSystemd_verdict (sys : Linux.Systemd) (ancestry : List Process) :
    ((∃ p ∈ ancestry, p.PID = 1 ∧
        (p.Command = "systemd".toList ∨ p.Command = "init".toList)) →
      ∃ target, ancestry.getLast? = some target ∧
        Linux.detectSystemd sys ancestry = .ok (some (Linux.systemdSource sys target.PID)) ∧
        (Linux.systemdSource sys target.PID).Typ = .systemd ∧
        (Linux.systemdSource sys target.PID).Name = "systemd".toList ∧
        (Linux.systemdSource sys target.PID).UnitFile = Linux.resolveUnitFile sys target.PID ∧
        (Linux.systemdSource sys target.PID).Description =
          Linux.resolveUnitDescription sys target.PID) ∧
    ((¬ ∃ p ∈ ancestry, p.PID = 1 ∧
        (p.Command = "systemd".toList ∨ p.Command = "init".toList)) →
      Linux.detectSystemd sys ancestry = .ok none) := by
  have hiff : ancestry.any (fun p =>
      decide (p.PID = 1) && (decide (p.Command = "systemd".toList) ||
        decide (p.Command = "init".toList))) = true ↔
      ∃ p ∈ ancestry, p.PID = 1 ∧
        (p.Command = "systemd".toList ∨ p.Command = "init".toList) := by
    rw [List.any_eq_true]
    constructor
    · rintro ⟨p, hp, hcond⟩
      refine ⟨p, hp, ?_⟩
      simpa using hcond
    · rintro ⟨p, hp, hcond⟩
      refine ⟨p, hp, ?_⟩
      simpa using hcond
  constructor
  · intro hex
    have hany := hiff.mpr hex
    have hne : ancestry ≠ [] := by
      rintro rfl
      simp at hany
    cases hlast : ancestry.getLast? with
    | none =>
      rw [List.getLast?_eq_none_iff] at hlast
      exact absurd hlast hne
    | some target =>
      refine ⟨target, rfl, ?_, rfl, rfl, rfl, rfl⟩
      have hidx := index_last_eq ancestry hne
      rw [hlast] at hidx
      unfold Linux.detectSystemd
      simp only [hany, Bool.not_true, Bool.false_eq_true, if_false, hidx]
      rfl
  · intro hno
    have hany : ancestry.any (fun p =>
        decide (p.PID = 1) && (decide (p.Command = "systemd".toList) ||
          decide (p.Command = "init".toList))) = false := by
      rw [← Bool.not_eq_true]
      exact fun h => hno (hiff.mp h)
    unfold Linux.detectSystemd
    simp only [hany, Bool.not_false, if_true]

/-! ### The unit file of a process -/

/-- C20: `resolveUnitFile` returns the first non-empty answer among the fragment path of the
cgroup unit, the source path of the cgroup unit (both left out when the unit name is empty),
the fragment path queried by the PID and the source path queried by the PID, and the empty
string when all of them are empty; `systemctl` is taken to answer no query when it is not on
the search path. -/
theorem Linux.resolveUnitFile_first_answer (sys : Linux.Systemd) (pid : Int)
    (hpath : sys.lookPathSystemctl = false → ∀ prop target, sys.systemctlShow prop target = none) :
    Linux.resolveUnitFile sys pid =
      ((Linux.unitFileAnswers sys pid).find? (fun answer => answer ≠ [])).getD [] := by
  unfold Linux.resolveUnitFile Linux.unitFileAnswers
  dsimp only
  cases hlook : sys.lookPathSystemctl with
  | false =>
    have hq : ∀ prop target, Linux.querySystemdProperty sys prop target = [] := by
      intro prop target
      unfold Linux.querySystemdProperty
      rw [hpath hlook prop target]
    simp only [hq]
    by_cases hunit : Linux.getUnitNameFromCgroup sys pid = []
    · simp [hunit]
    · simp [hunit]
  | true =>
    generalize Linux.querySystemdProperty sys "FragmentPath".toList
      (Linux.getUnitNameFromCgroup sys pid) = a1
    generalize Linux.querySystemdProperty sys "SourcePath".toList
      (Linux.getUnitNameFromCgroup sys pid) = a2
    generalize Linux.querySystemdProperty sys "FragmentPath".toList (strconv.Itoa pid) = a3
    generalize Linux.querySystemdProperty sys "SourcePath".toList (strconv.Itoa pid) = a4
    generalize Linux.getUnitNameFromCgroup sys pid = unit
    by_cases hunit : unit = []
    · by_cases h3 : a3 = []
      · by_cases h4 : a4 = []
        · simp [hunit, h3, h4]
        · simp [hunit, h3, h4]
      · simp [hunit, h3]
    · by_cases h1 : a1 = []
      · by_cases h2 : a2 = []
        · by_cases h3 : a3 = []
          · by_cases h4 : a4 = []
            · simp [hunit, h1, h2, h3, h4]
            · simp [hunit, h1, h2, h3, h4]
          · simp [hunit, h1, h2, h3]
        · simp [hunit, h1, h2]
      · simp [hunit, h1]

/-- Witness of C20: for process 4321 of the sample host the fragment path of `nginx.service`
is the first non-empty answer. -/
theorem Linux.resolveUnitFile_first_answer_witness :
    Linux.resolveUnitFile Sample.systemdHost 4321 =
      ((Linux.unitFileAnswers Sample.systemdHost 4321).find? (fun answer => answer ≠ [])).getD
        [] ∧
    Linux.resolveUnitFile Sample.systemdHost 4321 = "/lib/systemd/system/nginx.service".toList :=
  ⟨Linux.resolveUnitFile_first_answer Sample.systemdHost 4321
      (fun hfalse => absurd hfalse (by decide)), by decide⟩

/-! ### Independence of the snapshot order -/

/-- Sorting two permutations of processes with pairwise distinct PIDs gives the same list. -/
theorem sortProcesses_perm (l1 l2 : List Process) (hperm : l1.Perm l2)
    (hnodup : (l1.map (fun p => p.PID)).Nodup) : sortProcesses l1 = sortProcesses l2 := by
  haveI : IsTotal Process (fun a b => a.PID ≤ b.PID) := ⟨fun a b => le_total a.PID b.PID⟩
  haveI : IsTrans Process (fun a b => a.PID ≤ b.PID) := ⟨fun _ _ _ hab hbc => le_trans hab hbc⟩
  haveI : IsAntisymm Process (fun a b => a.PID < b.PID) :=
    ⟨fun a b hab hba => absurd (lt_trans hab hba) (lt_irrefl _)⟩
  have hp1 : (sortProcesses l1).Perm l1 := List.perm_insertionSort _ _
  have hp2 : (sortProcesses l2).Perm l2 := List.perm_insertionSort _ _
  have strict : ∀ l : List Process, l.Perm l1 → l.Sorted (fun a b => a.PID ≤ b.PID) →
      l.Sorted (fun a b => a.PID < b.PID) := by
    intro l hl hs
    have hnd : (l.map (fun p => p.PID)).Nodup := (hl.map _).nodup_iff.mpr hnodup
    have hne : l.Pairwise (fun a b => a.PID ≠ b.PID) := List.pairwise_map.mp hnd
    exact (List.Pairwise.and hs hne).imp (fun hab => lt_of_le_of_ne hab.1 hab.2)
  exact List.eq_of_perm_of_sorted (hp1.trans (hperm.trans hp2.symm))
    (strict _ hp1 (List.sorted_insertionSort _ _))
    (strict _ (hp2.trans hperm.symm) (List.sorted_insertionSort _ _))

/-- The sorted children index of two permutations of a snapshot with pairwise distinct PIDs
is the same. -/
theorem sortedIndex_perm (ps1 ps2 : List Process) (hperm : ps1.Perm ps2)
    (hnodup : (ps1.map (fun p => p.PID)).Nodup) (ppid : Int) :
    sortedIndex ps1 ppid = sortedIndex ps2 ppid := by
  unfold sortedIndex indexByParent
  apply sortProcesses_perm _ _ (hperm.filter _)
  exact hnodup.sublist ((List.filter_sublist ps1).map _)

/-- C14: two snapshots that list the same processes, with pairwise distinct PIDs, in
different orders yield the same tree from `ResolveDescendants` and the same sequence from
`ResolveChildren`. -/
theorem snapshot_order_irrelevant (ps1 ps2 : List Process) (root : Process) (pid : Int)
    (hperm : ps1.Perm ps2) (hnodup : (ps1.map (fun p => p.PID)).Nodup) :
    ResolveDescendants (.ok ps1) root = ResolveDescendants (.ok ps2) root ∧
    ResolveChildren (.ok ps1) pid = ResolveChildren (.ok ps2) pid := by
  have hidx : sortedIndex ps1 = sortedIndex ps2 :=
    funext (fun ppid => sortedIndex_perm ps1 ps2 hperm hnodup ppid)
  constructor
  · simp only [ResolveDescendants, hidx, hperm.length_eq]
  · have hpid := sortedIndex_perm ps1 ps2 hperm hnodup pid
    unfold sortedIndex indexByParent at hpid
    simp only [ResolveChildren, hpid]

/-- Witness of C14: the sample snapshot and a reordering of it. -/
theorem snapshot_order_irrelevant_witness :
    ResolveDescendants (.ok Sample.cyclicSnapshot) Sample.rootProcess =
      ResolveDescendants (.ok Sample.cyclicSnapshotReordered) Sample.rootProcess ∧
    ResolveChildren (.ok Sample.cyclicSnapshot) 1 =
      ResolveChildren (.ok Sample.cyclicSnapshotReordered) 1 :=
  snapshot_order_irrelevant Sample.cyclicSnapshot Sample.cyclicSnapshotReordered
    Sample.rootProcess 1 (by decide) (by decide)

/-! ### Outcomes of the Linux port resolution -/

/-- The minimum loop ends with its start value or with one of the keys. -/
theorem Linux.lowestPID_fold_mem (keys : List Int) (acc : Int) :
    keys.foldl (fun minPID pid => if minPID = 0 ∨ pid < minPID then pid else minPID) acc = acc ∨
    keys.foldl (fun minPID pid => if minPID = 0 ∨ pid < minPID then pid else minPID) acc ∈
      keys := by
  induction keys generalizing acc with
  | nil => exact Or.inl rfl
  | cons k ks ih =>
    simp only [List.foldl_cons]
    by_cases hlt : acc = 0 ∨ k < acc
    · rw [if_pos hlt]
      rcases ih k with h | h
      · right
        rw [h]
        exact List.mem_cons_self _ _
      · exact Or.inr (List.mem_cons_of_mem _ h)
    · rw [if_neg hlt]
      rcases ih acc with h | h
      · exact Or.inl h
      · exact Or.inr (List.mem_cons_of_mem _ h)

/-- The PID an entry contributes to `pidSet` is the one its name denotes. -/
theorem Linux.ownerEntry_some (inodes : List Str) (e : Linux.ProcEntry) (pid : Int)
    (h : Linux.ownerEntry inodes e = some pid) : strconv.Atoi e.name = some pid := by
  unfold Linux.ownerEntry at h
  cases hname : strconv.Atoi e.name with
  | none => rw [hname] at h; simp at h
  | some q =>
    rw [hname] at h
    cases hfds : e.fds with
    | none => rw [hfds] at h; simp at h
    | some fds =>
      rw [hfds] at h
      simp only at h
      split_ifs at h
      exact h

/-- The keys of `pidSet` are the PIDs the entries of `/proc` contribute. -/
theorem Linux.mem_pidSet (h : Linux.Host) (inodes : List Str) (pid : Int) :
    pid ∈ Linux.pidSet h inodes ↔ ∃ e ∈ h.procDir, Linux.ownerEntry inodes e = some pid := by
  unfold Linux.pidSet
  rw [List.mem_dedup, List.mem_filterMap]

/-- C18: on Linux, with `/proc` listing only positive PIDs and the map `pidSet` ranged over
in some order of its keys, `ResolvePort` fails with the no-listener error when no line of the
socket tables matches the port, fails with the owner-not-detected error when sockets match
but no scanned process holds one of their inodes, and succeeds exactly when some process with
a positive PID holds a matching inode. -/
theorem Linux.ResolvePort_outcomes (h : Linux.Host) (mapOrder : List Int → List Int)
    (port : Int) (hperm : ∀ keys, (mapOrder keys).Perm keys)
    (hpos : ∀ e ∈ h.procDir, ∀ pid, strconv.Atoi e.name = some pid → 0 < pid) :
    ((∀ inode, inode ∉ Linux.tableInodes (fmt.Sprintf04X port) h.netTcp ++
          Linux.tableInodes (fmt.Sprintf04X port) h.netTcp6) →
      Linux.ResolvePort h mapOrder port = .error (.noListener port)) ∧
    ((∃ inode, inode ∈ Linux.tableInodes (fmt.Sprintf04X port) h.netTcp ++
          Linux.tableInodes (fmt.Sprintf04X port) h.netTcp6) →
      ∃ inodes, Linux.findSocketInodes h port = .ok inodes ∧
        ∀ inode, inode ∈ inodes ↔
          inode ∈ Linux.tableInodes (fmt.Sprintf04X port) h.netTcp ++
            Linux.tableInodes (fmt.Sprintf04X port) h.netTcp6) ∧
    (∀ inodes, Linux.findSocketInodes h port = .ok inodes →
      ((¬ ∃ e ∈ h.procDir, ∃ pid, Linux.ownerEntry inodes e = some pid) →
        Linux.ResolvePort h mapOrder port = .error .ownerNotDetected) ∧
      ((∃ pids, Linux.ResolvePort h mapOrder port = .ok pids) ↔
        ∃ e ∈ h.procDir, ∃ pid, 0 < pid ∧ Linux.ownerEntry inodes e = some pid)) := by
  refine ⟨?_, ?_, ?_⟩
  · intro hnone
    have hnil : (Linux.tableInodes (fmt.Sprintf04X port) h.netTcp ++
        Linux.tableInodes (fmt.Sprintf04X port) h.netTcp6).dedup = [] := by
      rw [List.eq_nil_iff_forall_not_mem]
      intro inode hmem
      exact hnone inode (List.mem_dedup.mp hmem)
    unfold Linux.ResolvePort Linux.findSocketInodes
    simp only [hnil, List.length_nil, if_true]
  · rintro ⟨inode, hmem⟩
    refine ⟨(Linux.tableInodes (fmt.Sprintf04X port) h.netTcp ++
        Linux.tableInodes (fmt.Sprintf04X port) h.netTcp6).dedup, ?_, fun i => List.mem_dedup⟩
    have hlen : (Linux.tableInodes (fmt.Sprintf04X port) h.netTcp ++
        Linux.tableInodes (fmt.Sprintf04X port) h.netTcp6).dedup.length ≠ 0 := by
      intro h0
      have hnil := List.length_eq_zero.mp h0
      rw [List.eq_nil_iff_forall_not_mem] at hnil
      exact hnil inode (List.mem_dedup.mpr hmem)
    unfold Linux.findSocketInodes
    simp only [if_neg hlen]
  · intro inodes hin
    have hres : Linux.ResolvePort h mapOrder port =
        Linux.selectListener (mapOrder (Linux.pidSet h inodes)) := by
      unfold Linux.ResolvePort
      rw [hin]
    have hkeys : ∀ pid, pid ∈ mapOrder (Linux.pidSet h inodes) ↔
        ∃ e ∈ h.procDir, Linux.ownerEntry inodes e = some pid := by
      intro pid
      rw [(hperm _).mem_iff, Linux.mem_pidSet]
    constructor
    · intro hno
      have hnil : mapOrder (Linux.pidSet h inodes) = [] := by
        rw [List.eq_nil_iff_forall_not_mem]
        intro pid hmem
        obtain ⟨e, he, hown⟩ := (hkeys pid).mp hmem
        exact hno ⟨e, he, pid, hown⟩
      rw [hres, hnil]
      rfl
    · constructor
      · rintro ⟨pids, hok⟩
        rw [hres] at hok
        unfold Linux.selectListener at hok
        simp only at hok
        split_ifs at hok with hgt
        have hmem : Linux.lowestPID (mapOrder (Linux.pidSet h inodes)) ∈
            mapOrder (Linux.pidSet h inodes) := by
          rcases Linux.lowestPID_fold_mem (mapOrder (Linux.pidSet h inodes)) 0 with h0 | hm
          · unfold Linux.lowestPID at hgt
            omega
          · exact hm
        obtain ⟨e, he, hown⟩ := (hkeys _).mp hmem
        exact ⟨e, he, _, hgt, hown⟩
      · rintro ⟨e, he, pid, _, hown⟩
        have hmem : pid ∈ mapOrder (Linux.pidSet h inodes) := (hkeys pid).mpr ⟨e, he, hown⟩
        have hne : mapOrder (Linux.pidSet h inodes) ≠ [] := List.ne_nil_of_mem hmem
        have hallpos : ∀ q ∈ mapOrder (Linux.pidSet h inodes), 0 < q := by
          intro q hq
          obtain ⟨e2, he2, hown2⟩ := (hkeys q).mp hq
          exact hpos e2 he2 q (Linux.ownerEntry_some inodes e2 q hown2)
        obtain ⟨hgt, _, _⟩ := Linux.lowestPID_least _ hne hallpos
        refine ⟨[Linux.lowestPID (mapOrder (Linux.pidSet h inodes))], ?_⟩
        rw [hres]
        unfold Linux.selectListener
        simp only [gt_iff_lt, if_pos hgt]

/-- Witness of C18: on the sample host the processes 4000 and 50 hold the listening socket of
port 8080 and the resolution succeeds with `[50]`; on port 9090 nothing matches. -/
theorem Linux.ResolvePort_outcomes_witness :
    (((∀ inode, inode ∉ Linux.tableInodes (fmt.Sprintf04X 8080) Sample.linuxHostListening.netTcp ++
          Linux.tableInodes (fmt.Sprintf04X 8080) Sample.linuxHostListening.netTcp6) →
      Linux.ResolvePort Sample.linuxHostListening id 8080 = .error (.noListener 8080)) ∧
    ((∃ inode, inode ∈ Linux.tableInodes (fmt.Sprintf04X 8080) Sample.linuxHostListening.netTcp ++
          Linux.tableInodes (fmt.Sprintf04X 8080) Sample.linuxHostListening.netTcp6) →
      ∃ inodes, Linux.findSocketInodes Sample.linuxHostListening 8080 = .ok inodes ∧
        ∀ inode, inode ∈ inodes ↔
          inode ∈ Linux.tableInodes (fmt.Sprintf04X 8080) Sample.linuxHostListening.netTcp ++
            Linux.tableInodes (fmt.Sprintf04X 8080) Sample.linuxHostListening.netTcp6) ∧
    (∀ inodes, Linux.findSocketInodes Sample.linuxHostListening 8080 = .ok inodes →
      ((¬ ∃ e ∈ Sample.linuxHostListening.procDir, ∃ pid,
          Linux.ownerEntry inodes e = some pid) →
        Linux.ResolvePort Sample.linuxHostListening id 8080 = .error .ownerNotDetected) ∧
      ((∃ pids, Linux.ResolvePort Sample.linuxHostListening id 8080 = .ok pids) ↔
        ∃ e ∈ Sample.linuxHostListening.procDir, ∃ pid,
          0 < pid ∧ Linux.ownerEntry inodes e = some pid))) ∧
    Linux.ResolvePort Sample.linuxHostListening id 8080 = .ok [50] ∧
    Linux.ResolvePort Sample.linuxHostListening id 9090 = .error (.noListener 9090) := by
  refine ⟨Linux.ResolvePort_outcomes Sample.linuxHostListening id 8080
    (fun keys => List.Perm.refl keys) ?_, by decide, by decide⟩
  intro e he pid hpid
  simp only [Sample.linuxHostListening, List.mem_cons, List.mem_singleton,
    List.not_mem_nil, or_false] at he
  rcases he with rfl | rfl | rfl
  · have hval : strconv.Atoi "4000".toList = some 4000 := by decide
    simp only [hval, Option.some.injEq] at hpid
    omega
  · have hval : strconv.Atoi "50".toList = some 50 := by decide
    simp only [hval, Option.some.injEq] at hpid
    omega
  · have hval : strconv.Atoi "self".toList = none := by decide
    simp only [hval] at hpid
    exact absurd hpid (by simp)

/-! ### The string functions -/

/-- `HasPrefix` holds exactly when the text starts with the prefix. -/
theorem strings.HasPrefix_iff (s p : Str) :
    strings.HasPrefix s p = true ↔ ∃ rest, s = p ++ rest := by
  induction s generalizing p with
  | nil =>
    cases p with
    | nil => simp [strings.HasPrefix]
    | cons d p => simp [strings.HasPrefix]
  | cons c s ih =>
    cases p with
    | nil => simp [strings.HasPrefix]
    | cons d p =>
      simp only [strings.HasPrefix, Bool.and_eq_true, beq_iff_eq, ih, List.cons_append,
        List.cons.injEq]
      constructor
      · rintro ⟨hcd, rest, hrest⟩
        exact ⟨rest, hcd, hrest⟩
      · rintro ⟨rest, hcd, hrest⟩
        exact ⟨hcd, rest, hrest⟩

/-- `HasSuffix` holds exactly when the text ends in the suffix. -/
theorem strings.HasSuffix_iff (s suffix : Str) :
    strings.HasSuffix s suffix = true ↔ ∃ stem, s = stem ++ suffix := by
  unfold strings.HasSuffix
  rw [strings.HasPrefix_iff]
  constructor
  · rintro ⟨rest, hrest⟩
    refine ⟨rest.reverse, ?_⟩
    have h2 := congrArg List.reverse hrest
    simpa using h2
  · rintro ⟨stem, hstem⟩
    exact ⟨stem.reverse, by rw [hstem, List.reverse_append]⟩

/-- `Contains` holds exactly when the second text occurs in the first as a block. -/
theorem strings.Contains_iff (s substr : Str) :
    strings.Contains s substr = true ↔ ∃ a b, s = a ++ substr ++ b := by
  induction s with
  | nil =>
    simp only [strings.Contains, List.isEmpty_iff]
    constructor
    · rintro rfl
      exact ⟨[], [], rfl⟩
    · rintro ⟨a, b, hab⟩
      have h2 := congrArg List.length hab
      simp only [List.length_nil, List.length_append] at h2
      exact List.length_eq_zero.mp (by omega)
  | cons c s ih =>
    simp only [strings.Contains, Bool.or_eq_true, strings.HasPrefix_iff, ih]
    constructor
    · rintro (⟨rest, hrest⟩ | ⟨a, b, hab⟩)
      · exact ⟨[], rest, by simpa using hrest⟩
      · exact ⟨c :: a, b, by simp [hab]⟩
    · rintro ⟨a, b, hab⟩
      cases a with
      | nil => exact Or.inl ⟨b, by simpa using hab⟩
      | cons a0 a1 =>
        simp only [List.cons_append, List.cons.injEq] at hab
        exact Or.inr ⟨a1, b, hab.2⟩

/-- Removing the surrounding white space twice is the same as removing it once. -/
theorem strings.TrimSpace_idem (s : Str) :
    strings.TrimSpace (strings.TrimSpace s) = strings.TrimSpace s := by
  have hform : ∀ t : Str, strings.TrimSpace t =
      List.rdropWhile strings.isSpace (t.dropWhile strings.isSpace) := fun _ => rfl
  have hhead : (List.rdropWhile strings.isSpace (s.dropWhile strings.isSpace)).dropWhile
      strings.isSpace = List.rdropWhile strings.isSpace (s.dropWhile strings.isSpace) := by
    obtain ⟨r, hr⟩ := List.rdropWhile_prefix strings.isSpace (s.dropWhile strings.isSpace)
    cases hu : List.rdropWhile strings.isSpace (s.dropWhile strings.isSpace) with
    | nil => rfl
    | cons a u =>
      rw [hu] at hr
      have hnot := List.head?_dropWhile_not strings.isSpace s
      rw [← hr] at hnot
      simp only [List.cons_append, List.head?_cons] at hnot
      rw [List.dropWhile_cons_of_neg (by simp [hnot])]
  rw [hform (strings.TrimSpace s), hform s, hhead, List.rdropWhile_idempotent]

/-- `cut` succeeds exactly at the first occurrence of the separator. -/
theorem strings.cut_eq_some (sep : Char) (s a b : Str) :
    strings.cut sep s = some (a, b) ↔ s = a ++ sep :: b ∧ sep ∉ a := by
  induction s generalizing a with
  | nil => simp [strings.cut]
  | cons c s ih =>
    unfold strings.cut
    by_cases hc : c = sep
    · subst hc
      simp only [beq_self_eq_true, if_true, Option.some.injEq, Prod.mk.injEq]
      constructor
      · rintro ⟨rfl, rfl⟩
        exact ⟨rfl, List.not_mem_nil _⟩
      · rintro ⟨heq, hnot⟩
        cases a with
        | nil =>
          simp only [List.nil_append, List.cons.injEq, true_and] at heq
          exact ⟨rfl, heq⟩
        | cons a0 a1 =>
          simp only [List.cons_append, List.cons.injEq] at heq
          exact absurd (heq.1 ▸ List.mem_cons_self _ _) hnot
    · have hbeq : (c == sep) = false := by simpa using hc
      simp only [hbeq, Bool.false_eq_true, if_false]
      constructor
      · intro h
        cases hcut : strings.cut sep s with
        | none => rw [hcut] at h; simp at h
        | some r =>
          obtain ⟨before, after⟩ := r
          rw [hcut] at h
          simp only [Option.some.injEq, Prod.mk.injEq] at h
          obtain ⟨rfl, rfl⟩ := h
          obtain ⟨hs, hnot⟩ := (ih before).mp hcut
          refine ⟨by rw [hs]; rfl, ?_⟩
          intro hmem
          rcases List.mem_cons.mp hmem with h1 | h1
          · exact hc h1.symm
          · exact hnot h1
      · rintro ⟨heq, hnot⟩
        cases a with
        | nil =>
          simp only [List.nil_append, List.cons.injEq] at heq
          exact absurd heq.1 hc
        | cons a0 a1 =>
          simp only [List.cons_append, List.cons.injEq] at heq
          obtain ⟨rfl, hs⟩ := heq
          have hcut := (ih a1).mpr ⟨hs, fun hm => hnot (List.mem_cons_of_mem _ hm)⟩
          rw [hcut]

/-- The three-piece split, by cases on the two cuts. -/
theorem strings.SplitN_three (s : Str) (sep : Char) :
    strings.SplitN s sep 3 =
      match strings.cut sep s with
      | none => [s]
      | some (a, rest) =>
        match strings.cut sep rest with
        | none => [a, rest]
        | some (b, c) => [a, b, c] := by
  show strings.SplitN s sep (1 + 2) = _
  simp only [strings.SplitN]
  cases strings.cut sep s with
  | none => rfl
  | some r =>
    obtain ⟨a, rest⟩ := r
    simp only
    show a :: strings.SplitN rest sep (0 + 2) = _
    simp only [strings.SplitN]
    cases strings.cut sep rest with
    | none => rfl
    | some r2 => rfl

/-! ### The unit name of a cgroup file -/

/-- The loop over the lines, one line at a time. -/
theorem Linux.unitOfLines_cons (line : Str) (rest : List Str) :
    Linux.unitOfLines (line :: rest) =
      match Linux.unitOfLine line with
      | some part => part
      | none => Linux.unitOfLines rest := by
  rw [Linux.unitOfLines, Linux.unitOfLine]
  rcases hs : strings.SplitN line ':' 3 with _ | ⟨a, _ | ⟨b, _ | ⟨c, tl⟩⟩⟩
  · rfl
  · rfl
  · rfl
  · dsimp only
    split_ifs with hc
    · cases Linux.unitOfPath (strings.Split (strings.TrimSpace (strings.TrimSpace c)) '/') with
      | none => rfl
      | some part => rfl
    · rfl

/-- The suffix test of the inner loop. -/
theorem Linux.isUnitName_iff (part : Str) :
    (strings.HasSuffix part ".service".toList || strings.HasSuffix part ".scope".toList) = true ↔
      Linux.IsUnitName part := by
  unfold Linux.IsUnitName
  rw [Bool.or_eq_true, strings.HasSuffix_iff, strings.HasSuffix_iff]

/-- The inner loop returns the last piece that is a unit name. -/
theorem Linux.unitOfPath_some (parts : List Str) (part : Str)
    (h : Linux.unitOfPath parts = some part) :
    ∃ front back, parts = front ++ part :: back ∧ Linux.IsUnitName part ∧
      ∀ q ∈ back, ¬ Linux.IsUnitName q := by
  unfold Linux.unitOfPath at h
  obtain ⟨hp, as, bs, hrev, has⟩ := List.find?_eq_some.mp h
  refine ⟨bs.reverse, as.reverse, ?_, (Linux.isUnitName_iff part).mp hp, ?_⟩
  · have h2 := congrArg List.reverse hrev
    simpa using h2
  · intro q hq hunit
    have h1 := has q (List.mem_reverse.mp hq)
    have h2 := (Linux.isUnitName_iff q).mpr hunit
    rw [h2] at h1
    exact absurd h1 (by decide)

/-- The inner loop returns nothing only when no piece is a unit name. -/
theorem Linux.unitOfPath_none (parts : List Str) (h : Linux.unitOfPath parts = none) :
    ∀ q ∈ parts, ¬ Linux.IsUnitName q := by
  unfold Linux.unitOfPath at h
  rw [List.find?_eq_none] at h
  intro q hq hunit
  exact h q (List.mem_reverse.mpr hq) ((Linux.isUnitName_iff q).mpr hunit)

/-- A cgroup line splits into its three fields. -/
theorem Linux.CgroupLine_split (line controllers path : Str)
    (h : Linux.CgroupLine line controllers path) :
    ∃ hierarchy, strings.SplitN line ':' 3 = [hierarchy, controllers, path] := by
  obtain ⟨hierarchy, hline, h1, h2⟩ := h
  refine ⟨hierarchy, ?_⟩
  have hcut1 := (strings.cut_eq_some ':' line hierarchy (controllers ++ ':' :: path)).mpr
    ⟨hline, h1⟩
  have hcut2 := (strings.cut_eq_some ':' (controllers ++ ':' :: path) controllers path).mpr
    ⟨rfl, h2⟩
  rw [strings.SplitN_three, hcut1]
  simp only [hcut2]

/-- A line that splits into three fields is a cgroup line. -/
theorem Linux.split_CgroupLine (line x controllers path : Str) (tl : List Str)
    (h : strings.SplitN line ':' 3 = x :: controllers :: path :: tl) :
    Linux.CgroupLine line controllers path := by
  rw [strings.SplitN_three] at h
  cases hcut1 : strings.cut ':' line with
  | none => rw [hcut1] at h; simp at h
  | some r =>
    obtain ⟨a, rest⟩ := r
    rw [hcut1] at h
    simp only at h
    cases hcut2 : strings.cut ':' rest with
    | none => rw [hcut2] at h; simp at h
    | some r2 =>
      obtain ⟨b, c⟩ := r2
      rw [hcut2] at h
      simp only [List.cons.injEq] at h
      obtain ⟨rfl, rfl, rfl, _⟩ := h
      obtain ⟨hline, h1⟩ := (strings.cut_eq_some ':' line a rest).mp hcut1
      obtain ⟨hrest, h2⟩ := (strings.cut_eq_some ':' rest b c).mp hcut2
      exact ⟨a, by rw [hline, hrest], h1, h2⟩

/-- The controller test of the loop. -/
theorem Linux.systemdControllers_iff (controllers : Str) :
    (controllers = [] ∨ strings.Contains controllers "systemd".toList = true) ↔
      Linux.SystemdControllers controllers := by
  unfold Linux.SystemdControllers
  rw [strings.Contains_iff]

/-- A line that yields a unit name is a cgroup line with an eligible controller field, and
the name is the last unit name among the segments of its path. -/
theorem Linux.unitOfLine_some (line part : Str) (h : Linux.unitOfLine line = some part) :
    ∃ controllers path front back, Linux.CgroupLine line controllers path ∧
      Linux.SystemdControllers controllers ∧
      Linux.pathSegments path = front ++ part :: back ∧ Linux.IsUnitName part ∧
      ∀ q ∈ back, ¬ Linux.IsUnitName q := by
  unfold Linux.unitOfLine at h
  split at h
  · rename_i x controllers path tl heq
    split_ifs at h with hc
    rw [strings.TrimSpace_idem] at h
    obtain ⟨front, back, hparts, hunit, hback⟩ := Linux.unitOfPath_some _ part h
    exact ⟨controllers, path, front, back, Linux.split_CgroupLine line x controllers path tl heq,
      (Linux.systemdControllers_iff controllers).mp hc, hparts, hunit, hback⟩
  · simp at h

/-- A line that yields nothing has no unit name to offer. -/
theorem Linux.unitOfLine_none (line : Str) (h : Linux.unitOfLine line = none) :
    Linux.NoUnit line := by
  intro controllers path hline hsys part hpart hunit
  obtain ⟨hierarchy, hsplit⟩ := Linux.CgroupLine_split line controllers path hline
  unfold Linux.unitOfLine at h
  rw [hsplit] at h
  simp only at h
  rw [if_pos ((Linux.systemdControllers_iff controllers).mpr hsys), strings.TrimSpace_idem] at h
  exact Linux.unitOfPath_none _ h part hpart hunit

/-- The loop over the lines returns the unit name of the first line that yields one, and the
empty string when no line does. -/
theorem Linux.unitOfLines_spec (lines : List Str) :
    (Linux.unitOfLines lines = [] ∧ ∀ line ∈ lines, Linux.NoUnit line) ∨
    ∃ before line after part, lines = before ++ line :: after ∧
      (∀ l ∈ before, Linux.NoUnit l) ∧ Linux.unitOfLine line = some part ∧
      Linux.unitOfLines lines = part := by
  induction lines with
  | nil =>
    left
    exact ⟨rfl, fun line hline => absurd hline (List.not_mem_nil line)⟩
  | cons line rest ih =>
    rw [Linux.unitOfLines_cons]
    cases hline : Linux.unitOfLine line with
    | some part =>
      right
      exact ⟨[], line, rest, part, rfl, fun l hl => absurd hl (List.not_mem_nil l), hline, rfl⟩
    | none =>
      have hno := Linux.unitOfLine_none line hline
      simp only
      rcases ih with ⟨hempty, hall⟩ | ⟨before, l2, after, part, hsplit, hbefore, hl2, hres⟩
      · left
        refine ⟨hempty, ?_⟩
        intro l hl
        rcases List.mem_cons.mp hl with rfl | hl
        · exact hno
        · exact hall l hl
      · right
        refine ⟨line :: before, l2, after, part, by rw [hsplit]; rfl, ?_, hl2, hres⟩
        intro l hl
        rcases List.mem_cons.mp hl with rfl | hl
        · exact hno
        · exact hbefore l hl

/-- C12: for every cgroup text, `getUnitNameFromCgroup` returns the empty string when no line
whose controller field is empty or contains `systemd` has a path segment ending in `.service`
or `.scope`; otherwise it returns, for the first such line that has such a segment, the one
nearest the end of the path. So the result is empty or such a segment of such a line. -/
theorem Linux.getUnitNameFromCgroup_spec (sys : Linux.Systemd) (pid : Int) (data : Str)
    (hread : sys.cgroup pid = some data) :
    (Linux.getUnitNameFromCgroup sys pid = [] ∧
      ∀ line ∈ strings.Split data '\n', Linux.NoUnit line) ∨
    ∃ before line after controllers path front part back,
      strings.Split data '\n' = before ++ line :: after ∧
      (∀ l ∈ before, Linux.NoUnit l) ∧
      Linux.CgroupLine line controllers path ∧ Linux.SystemdControllers controllers ∧
      Linux.pathSegments path = front ++ part :: back ∧ Linux.IsUnitName part ∧
      (∀ q ∈ back, ¬ Linux.IsUnitName q) ∧
      Linux.getUnitNameFromCgroup sys pid = part := by
  have hget : Linux.getUnitNameFromCgroup sys pid =
      Linux.unitOfLines (strings.Split data '\n') := by
    unfold Linux.getUnitNameFromCgroup
    rw [hread]
  rw [hget]
  rcases Linux.unitOfLines_spec (strings.Split data '\n') with
    hnone | ⟨before, line, after, part, hsplit, hbefore, hline, hres⟩
  · exact Or.inl hnone
  · right
    obtain ⟨controllers, path, front, back, hcg, hsys, hseg, hunit, hback⟩ :=
      Linux.unitOfLine_some line part hline
    exact ⟨before, line, after, controllers, path, front, part, back, hsplit, hbefore, hcg,
      hsys, hseg, hunit, hback, hres⟩

/-- Witness of C12: in the sample file the `pids` line is passed over and the scope of the
`name=systemd` line is returned. -/
theorem Linux.getUnitNameFromCgroup_spec_witness :
    ((Linux.getUnitNameFromCgroup Sample.cgroupHost 77 = [] ∧
      ∀ line ∈ strings.Split Sample.cgroupV1 '\n', Linux.NoUnit line) ∨
    ∃ before line after controllers path front part back,
      strings.Split Sample.cgroupV1 '\n' = before ++ line :: after ∧
      (∀ l ∈ before, Linux.NoUnit l) ∧
      Linux.CgroupLine line controllers path ∧ Linux.SystemdControllers controllers ∧
      Linux.pathSegments path = front ++ part :: back ∧ Linux.IsUnitName part ∧
      (∀ q ∈ back, ¬ Linux.IsUnitName q) ∧
      Linux.getUnitNameFromCgroup Sample.cgroupHost 77 = part) ∧
    Linux.getUnitNameFromCgroup Sample.cgroupHost 77 = "session-3.scope".toList :=
  ⟨Linux.getUnitNameFromCgroup_spec Sample.cgroupHost 77 Sample.cgroupV1 rfl, by decide⟩

/-! ### The nodes below the root -/

theorem ProcessTree.nodes_eq (t : ProcessTree) :
    t.nodes = t :: ProcessTree.nodesOfList t.children := by
  cases t with
  | node p cs => exact ProcessTree.nodes_node p cs

theorem ProcessTree.nodes_map_proc (t : ProcessTree) :
    t.nodes.map ProcessTree.proc = t.proc :: t.belowProcs := by
  rw [ProcessTree.nodes_eq]
  rfl

/-- The children loop and the marks: the marks grow by a block `new` at the front, every
child is marked afterwards, the processes of the nodes built are the children together with
the indexed groups of the new marks, and the indexed children of every new mark are
marked. -/
theorem buildNodes_marks (idx : Int → List Process)
    (build : List Int → Process → Option (ProcessTree × List Int))
    (hb : ∀ v c t v2, build v c = some (t, v2) →
      t.proc = c ∧ ∃ new, v2 = new ++ v ∧ c.PID ∈ v2 ∧
        t.belowProcs.Perm (new.flatMap idx) ∧ ∀ x ∈ new, ∀ d ∈ idx x, d.PID ∈ v2)
    (cs : List Process) :
    ∀ (v : List Int) (ns : List ProcessTree) (v2 : List Int),
      buildNodes build v cs = some (ns, v2) →
      ∃ new, v2 = new ++ v ∧ (∀ c ∈ cs, c.PID ∈ v2) ∧
        ((ProcessTree.nodesOfList ns).map ProcessTree.proc).Perm (cs ++ new.flatMap idx) ∧
        ∀ x ∈ new, ∀ d ∈ idx x, d.PID ∈ v2 := by
  induction cs with
  | nil =>
    intro v ns v2 h
    simp only [buildNodes, Option.some.injEq, Prod.mk.injEq] at h
    obtain ⟨rfl, rfl⟩ := h
    refine ⟨[], rfl, fun c hc => absurd hc (List.not_mem_nil c), ?_,
      fun x hx => absurd hx (List.not_mem_nil x)⟩
    simp [ProcessTree.nodesOfList]
  | cons c cs ih =>
    intro v ns v2 h
    obtain ⟨t, v1, rest, h1, h2, rfl⟩ := buildNodes_cons_some build v c cs ns v2 h
    obtain ⟨ht, new1, hv1, hc1, hperm1, hcl1⟩ := hb v c t v1 h1
    obtain ⟨new2, hv2, hcs, hperm2, hcl2⟩ := ih v1 rest v2 h2
    have hsub : ∀ x, x ∈ v1 → x ∈ v2 := by
      intro x hx
      rw [hv2]
      exact List.mem_append_right _ hx
    refine ⟨new2 ++ new1, by rw [hv2, hv1, List.append_assoc], ?_, ?_, ?_⟩
    · intro d hd
      rcases List.mem_cons.mp hd with rfl | hd
      · exact hsub _ hc1
      · exact hcs d hd
    · rw [ProcessTree.nodesOfList_cons, List.map_append, ProcessTree.nodes_map_proc, ht,
        List.flatMap_append, List.cons_append, List.cons_append]
      apply List.Perm.cons
      have step1 : (t.belowProcs ++ (ProcessTree.nodesOfList rest).map ProcessTree.proc).Perm
          (new1.flatMap idx ++ (cs ++ new2.flatMap idx)) := hperm1.append hperm2
      refine step1.trans ?_
      rw [← List.append_assoc cs]
      exact List.perm_append_comm
    · intro x hx d hd
      rcases List.mem_append.mp hx with hx | hx
      · exact hcl2 x hx d hd
      · exact hsub _ (hcl1 x hx d hd)

/-- A call of `buildTree` and the marks: the marks grow by a block `new` at the front, the
PID of the call is marked afterwards, the processes below the root of the tree built are the
indexed groups of the new marks, and the indexed children of every new mark are marked. -/
theorem buildTree_marks (idx : Int → List Process) (fuel : Nat) :
    ∀ (v : List Int) (p : Process) (t : ProcessTree) (v2 : List Int),
      buildTree idx fuel v p = some (t, v2) →
      t.proc = p ∧ ∃ new, v2 = new ++ v ∧ p.PID ∈ v2 ∧
        t.belowProcs.Perm (new.flatMap idx) ∧ ∀ x ∈ new, ∀ d ∈ idx x, d.PID ∈ v2 := by
  have leaf : ∀ (v : List Int) (p : Process), p.PID ∈ v →
      (ProcessTree.node p []).proc = p ∧ ∃ new, v = new ++ v ∧ p.PID ∈ v ∧
        (ProcessTree.node p []).belowProcs.Perm (new.flatMap idx) ∧
        ∀ x ∈ new, ∀ d ∈ idx x, d.PID ∈ v := by
    intro v p hv
    refine ⟨rfl, [], rfl, hv, ?_, fun x hx => absurd hx (List.not_mem_nil x)⟩
    simp [ProcessTree.belowProcs, ProcessTree.children, ProcessTree.nodesOfList]
  induction fuel with
  | zero =>
    intro v p t v2 h
    rcases buildTree_some idx 0 v p t v2 h with ⟨hv, rfl, rfl⟩ | ⟨_, f, ns, hf, _, _⟩
    · exact leaf _ _ hv
    · omega
  | succ g ih =>
    intro v p t v2 h
    rcases buildTree_some idx (g + 1) v p t v2 h with ⟨hv, rfl, rfl⟩ | ⟨hv, f, ns, hf, hn, rfl⟩
    · exact leaf _ _ hv
    · have hfg : f = g := by omega
      subst hfg
      obtain ⟨new, hv2, hcs, hperm, hcl⟩ :=
        buildNodes_marks idx (buildTree idx f) ih (idx p.PID) (p.PID :: v) ns v2 hn
      have hp : p.PID ∈ v2 := by
        rw [hv2]
        exact List.mem_append_right _ (List.mem_cons_self _ _)
      refine ⟨rfl, new ++ [p.PID], by rw [hv2]; simp, hp, ?_, ?_⟩
      · rw [List.flatMap_append, List.flatMap_singleton]
        exact hperm.trans List.perm_append_comm
      · intro x hx d hd
        rcases List.mem_append.mp hx with hx | hx
        · exact hcl x hx d hd
        · rw [List.mem_singleton] at hx
          subst hx
          exact hcs d hd

/-- A process of the snapshot is in the indexed group of its PPID. -/
theorem sortedIndex_mem_of (processes : List Process) (ppid : Int) (c : Process)
    (hc : c ∈ processes) (hp : c.PPID = ppid) : c ∈ sortedIndex processes ppid := by
  have hperm : (sortedIndex processes ppid).Perm (indexByParent processes ppid) :=
    List.perm_insertionSort _ _
  apply hperm.symm.subset
  unfold indexByParent
  rw [List.mem_filter]
  exact ⟨hc, by simpa using hp⟩

/-- In a snapshot with pairwise distinct PIDs the indexed groups of pairwise distinct PIDs
hold pairwise distinct PIDs. -/
theorem sortedIndex_flatMap_nodup (processes : List Process) (marks : List Int)
    (hnodup : (processes.map (fun p => p.PID)).Nodup) (hmarks : marks.Nodup) :
    ((marks.flatMap (sortedIndex processes)).map (fun p => p.PID)).Nodup := by
  rw [List.map_flatMap, List.nodup_flatMap]
  constructor
  · intro x _
    have hperm : (sortedIndex processes x).Perm (indexByParent processes x) :=
      List.perm_insertionSort _ _
    rw [(hperm.map _).nodup_iff]
    exact hnodup.sublist ((List.filter_sublist processes).map _)
  · refine List.Pairwise.imp ?_ hmarks
    intro a b hab k hka hkb
    obtain ⟨c1, hc1, hk1⟩ := List.mem_map.mp hka
    obtain ⟨c2, hc2, hk2⟩ := List.mem_map.mp hkb
    obtain ⟨hm1, hp1⟩ := sortedIndex_mem processes a c1 hc1
    obtain ⟨hm2, hp2⟩ := sortedIndex_mem processes b c2 hc2
    have heq : c1 = c2 := List.inj_on_of_nodup_map hnodup hm1 hm2 (by rw [hk1, hk2])
    apply hab
    rw [← hp1, ← hp2, heq]

/-- When the marks hold `a` and the indexed children of every mark, they hold the PID and the
PPID of every descendant of `a`. -/
theorem Descends_marked (processes : List Process) (marks : List Int) (a : Int)
    (ha : a ∈ marks)
    (hcl : ∀ x ∈ marks, ∀ d ∈ sortedIndex processes x, d.PID ∈ marks)
    (p : Process) (hp : Descends processes a p) : p.PPID ∈ marks ∧ p.PID ∈ marks := by
  induction hp with
  | child p hmem hppid =>
    have h1 : p.PPID ∈ marks := by rw [hppid]; exact ha
    exact ⟨h1, hcl _ h1 p (sortedIndex_mem_of processes _ p hmem rfl)⟩
  | step m p _ hmem hppid ih =>
    have h1 : p.PPID ∈ marks := by rw [hppid]; exact ih.2
    exact ⟨h1, hcl _ h1 p (sortedIndex_mem_of processes _ p hmem rfl)⟩

/-- C19: for a snapshot with pairwise distinct PIDs in which the root is listed as its own
descendant, and a root with a positive PID, `ResolveDescendants` returns a tree in which
exactly one node below the root node carries the root's PID, and every node below the root
that carries it has no children. -/
theorem ResolveDescendants_cycle_through_root (processes : List Process) (root : Process)
    (hroot : 0 < root.PID) (hnodup : (processes.map (fun p => p.PID)).Nodup)
    (hcycle : ∃ r ∈ processes, r.PID = root.PID ∧ Descends processes root.PID r) :
    ∃ t, ResolveDescendants (.ok processes) root = .ok (some t) ∧ t.proc = root ∧
      ((ProcessTree.nodesOfList t.children).map (fun n => n.proc.PID)).count root.PID = 1 ∧
      ∀ n ∈ ProcessTree.nodesOfList t.children, n.proc.PID = root.PID → n.children = [] := by
  obtain ⟨t, visited, hbuild⟩ := buildTree_root_returns processes root
  have hres := ResolveDescendants_of_buildTree processes root t visited hbuild
  rw [if_neg (by omega)] at hres
  obtain ⟨hproc, _, _, hvnodup, hexp, _⟩ :=
    buildTree_spec (sortedIndex processes) _ [] root t visited hbuild
  obtain ⟨_, new, hnew, hrootmark, hperm, hclosed⟩ :=
    buildTree_marks (sortedIndex processes) _ [] root t visited hbuild
  rw [List.append_nil] at hnew
  subst hnew
  have hmarks : visited.Nodup := hvnodup List.nodup_nil
  obtain ⟨r, hr, hrpid, hdesc⟩ := hcycle
  have hbelow : (t.belowProcs.map (fun p => p.PID)).Nodup :=
    ((hperm.map _).nodup_iff).mpr (sortedIndex_flatMap_nodup processes visited hnodup hmarks)
  have hrmem : r ∈ t.belowProcs := by
    apply hperm.symm.subset
    rw [List.mem_flatMap]
    exact ⟨r.PPID, (Descends_marked processes visited root.PID hrootmark hclosed r hdesc).1,
      sortedIndex_mem_of processes _ r hr rfl⟩
  have hmap : (ProcessTree.nodesOfList t.children).map (fun n => n.proc.PID) =
      t.belowProcs.map (fun p => p.PID) := by
    unfold ProcessTree.belowProcs
    rw [List.map_map]
    rfl
  refine ⟨t, hres, hproc, ?_, ?_⟩
  · rw [hmap]
    apply List.count_eq_one_of_mem hbelow
    rw [← hrpid]
    exact List.mem_map.mpr ⟨r, hrmem, rfl⟩
  · intro n hn hpid
    by_contra hchildren
    cases t with
    | node p ns =>
      have hp : p = root := hproc
      have hns : ns ≠ [] := by
        rintro rfl
        simp [ProcessTree.children, ProcessTree.nodesOfList] at hn
      have hin : root.PID ∈ ProcessTree.expandedOfList ns := by
        unfold ProcessTree.expandedOfList
        rw [List.mem_map]
        refine ⟨n, ?_, hpid⟩
        rw [List.mem_filter]
        refine ⟨hn, ?_⟩
        cases hc : n.children with
        | nil => exact absurd hc hchildren
        | cons c cs => rfl
      rw [ProcessTree.expandedPIDs_node] at hexp
      have hempty : ns.isEmpty = false := by
        cases ns with
        | nil => exact absurd rfl hns
        | cons c cs => rfl
      rw [hempty] at hexp
      simp only [Bool.false_eq_true, if_false, List.singleton_append, List.nodup_cons] at hexp
      exact hexp.1 (hp ▸ hin)

/-- Witness of C19: in the sample snapshot process 10 is a child of the root 1 and the
process with PID 1 is a child of 10. -/
theorem ResolveDescendants_cycle_through_root_witness :
    ∃ t, ResolveDescendants (.ok Sample.cyclicSnapshot) Sample.rootProcess = .ok (some t) ∧
      t.proc = Sample.rootProcess ∧
      ((ProcessTree.nodesOfList t.children).map (fun n => n.proc.PID)).count
        Sample.rootProcess.PID = 1 ∧
      ∀ n ∈ ProcessTree.nodesOfList t.children, n.proc.PID = Sample.rootProcess.PID →
        n.children = [] :=
  ResolveDescendants_cycle_through_root Sample.cyclicSnapshot Sample.rootProcess (by decide)
    (by decide)
    ⟨{ PID := 1, PPID := 10, Command := "init".toList, Cmdline := [], Service := [] },
      by decide, rfl,
      Descends.step
        { PID := 10, PPID := 1, Command := "worker".toList, Cmdline := [], Service := [] } _
        (Descends.child _ (by decide) rfl) (by decide) rfl⟩

/-! ### Slice indexing and the verdicts of the Windows detector -/

/-- Slice indexing inside the bounds succeeds and yields an element of the slice. -/
theorem index_in_bounds (xs : List Process) (i : Int) (h0 : 0 ≤ i) (h1 : i < xs.length) :
    ∃ x, index xs i = some x ∧ x ∈ xs := by
  unfold index
  rw [if_neg (by omega)]
  cases hg : xs.get? i.toNat with
  | some x => exact ⟨x, rfl, List.get?_mem hg⟩
  | none =>
    rw [List.get?_eq_none] at hg
    omega

/-- The three ways `detectWindowsService` ends: a process carries a service name; none does
but some command is `services.exe`; neither. It never ends in a panic. -/
theorem Windows.detectWindowsService_cases (lower : Char → Char) (ancestry : List Process) :
    (∃ p ∈ ancestry, p.Service ≠ [] ∧
      Windows.detectWindowsService lower ancestry =
        .ok (some (Windows.serviceVerdict p.Service))) ∨
    ((∀ p ∈ ancestry, p.Service = []) ∧
      (∃ p ∈ ancestry, strings.ToLower lower p.Command = "services.exe".toList) ∧
      Windows.detectWindowsService lower ancestry = .ok (some Windows.genericVerdict)) ∨
    ((∀ p ∈ ancestry, p.Service = []) ∧
      (∀ p ∈ ancestry, strings.ToLower lower p.Command ≠ "services.exe".toList) ∧
      Windows.detectWindowsService lower ancestry = .ok none) := by
  cases hf : ancestry.reverse.find? (fun p => p.Service ≠ []) with
  | some p =>
    left
    obtain ⟨hp, as, bs, hrev, _⟩ := List.find?_eq_some.mp hf
    have hmem : p ∈ ancestry := by
      rw [← List.mem_reverse, hrev]
      simp
    refine ⟨p, hmem, by simpa using hp, ?_⟩
    unfold Windows.detectWindowsService
    rw [hf]
    rfl
  | none =>
    right
    have hservice : ∀ p ∈ ancestry, p.Service = [] := by
      rw [List.find?_eq_none] at hf
      intro p hp
      have := hf p (List.mem_reverse.mpr hp)
      simpa using this
    by_cases hany : ancestry.any
        (fun p => decide (strings.ToLower lower p.Command = "services.exe".toList)) = true
    · left
      refine ⟨hservice, ?_, ?_⟩
      · obtain ⟨p, hp, hcmd⟩ := List.any_eq_true.mp hany
        exact ⟨p, hp, by simpa using hcmd⟩
      · unfold Windows.detectWindowsService
        rw [hf]
        simp only [hany, if_true]
        rfl
    · right
      have hnone : ∀ p ∈ ancestry, strings.ToLower lower p.Command ≠ "services.exe".toList := by
        intro p hp hcmd
        exact hany (List.any_eq_true.mpr ⟨p, hp, by simpa using hcmd⟩)
      refine ⟨hservice, hnone, ?_⟩
      unfold Windows.detectWindowsService
      rw [hf]
      simp only [hany, Bool.false_eq_true, if_false]
      by_cases hlen : ancestry.length ≥ 2
      · obtain ⟨parent, hparent, hpmem⟩ :=
          index_in_bounds ancestry ((ancestry.length : Int) - 2) (by omega) (by omega)
        obtain ⟨target, htarget, _⟩ :=
          index_in_bounds ancestry ((ancestry.length : Int) - 1) (by omega) (by omega)
        simp only [hlen, if_true, hparent, htarget, if_neg (hnone parent hpmem)]
      · simp only [hlen, if_false]

/-- C22: `detectWindowsService` returns no verdict if and only if no process of the ancestry
has a non-empty service name and no process of the ancestry has a command name whose
lower-cased text (`strings.ToLower`, with the case table `lower` of the Go library) is
`services.exe`; so it returns no verdict for the empty ancestry. -/
theorem Windows.detectWindowsService_no_verdict_iff (lower : Char → Char)
    (ancestry : List Process) :
    (Windows.detectWindowsService lower ancestry = .ok none ↔
      (∀ p ∈ ancestry, p.Service = []) ∧
      (∀ p ∈ ancestry, strings.ToLower lower p.Command ≠ "services.exe".toList)) ∧
    Windows.detectWindowsService lower [] = .ok none := by
  refine ⟨?_, rfl⟩
  rcases Windows.detectWindowsService_cases lower ancestry with
    ⟨p, hp, hs, hres⟩ | ⟨hservice, ⟨p, hp, hcmd⟩, hres⟩ | ⟨hservice, hnone, hres⟩
  · rw [hres]
    constructor
    · intro h
      simp at h
    · rintro ⟨hservice, _⟩
      exact absurd (hservice p hp) hs
  · rw [hres]
    constructor
    · intro h
      simp at h
    · rintro ⟨_, hnone⟩
      exact absurd hcmd (hnone p hp)
  · rw [hres]
    exact ⟨fun _ => ⟨hservice, hnone⟩, fun _ => rfl⟩

/-- C23: `detectSystemd` and `detectWindowsService` return normally on every ancestry, the
empty one and a single-element one included: the elements `ancestry[len-1]` and
`ancestry[len-2]` are read only where they exist, so no index panic arises. -/
theorem detectors_index_within_ancestry (lower : Char → Char) (sys : Linux.Systemd)
    (ancestry : List Process) :
    (∃ verdict, Linux.detectSystemd sys ancestry = .ok verdict) ∧
    (∃ verdict, Windows.detectWindowsService lower ancestry = .ok verdict) ∧
    Linux.detectSystemd sys [] = .ok none ∧
    Windows.detectWindowsService lower [] = .ok none ∧
    (∀ p : Process, ∃ verdict, Linux.detectSystemd sys [p] = .ok verdict) ∧
    (∀ p : Process, ∃ verdict, Windows.detectWindowsService lower [p] = .ok verdict) := by
  have windows : ∀ chain : List Process,
      ∃ verdict, Windows.detectWindowsService lower chain = .ok verdict := by
    intro chain
    rcases Windows.detectWindowsService_cases lower chain with
      ⟨p, _, _, hres⟩ | ⟨_, _, hres⟩ | ⟨_, _, hres⟩
    · exact ⟨_, hres⟩
    · exact ⟨_, hres⟩
    · exact ⟨_, hres⟩
  exact ⟨Linux.detectSystemd_returns sys ancestry, windows ancestry, rfl, rfl,
    fun p => Linux.detectSystemd_returns sys [p], fun p => windows [p]⟩

/-! ### The descendants below the root -/

/-- A descendant is a process of the snapshot. -/
theorem Descends_mem (processes : List Process) (a : Int) (p : Process)
    (h : Descends processes a p) : p ∈ processes := by
  cases h with
  | child _ hmem _ => exact hmem
  | step _ _ _ hmem _ => exact hmem

/-- The descendants of a child of `a` are descendants of `a`. -/
theorem Descends_of_child (processes : List Process) (a : Int) (c d : Process)
    (hc : c ∈ processes) (hp : c.PPID = a) (h : Descends processes c.PID d) :
    Descends processes a d := by
  induction h with
  | child d hmem hppid => exact Descends.step c d (Descends.child c hc hp) hmem hppid
  | step m d _ hmem hppid ih => exact Descends.step m d ih hmem hppid

/-- The children loop marks nothing but the children of `a` it is run on and their
descendants. -/
theorem buildNodes_descend (processes : List Process) (a : Int)
    (build : List Int → Process → Option (ProcessTree × List Int))
    (hb : ∀ v c t v2, build v c = some (t, v2) →
      ∀ x ∈ v2, x ∈ v ∨ x = c.PID ∨ ∃ d, Descends processes c.PID d ∧ d.PID = x)
    (cs : List Process) (hcs : ∀ c ∈ cs, c ∈ processes ∧ c.PPID = a) :
    ∀ (v : List Int) (ns : List ProcessTree) (v2 : List Int),
      buildNodes build v cs = some (ns, v2) →
      ∀ x ∈ v2, x ∈ v ∨ ∃ d, Descends processes a d ∧ d.PID = x := by
  induction cs with
  | nil =>
    intro v ns v2 h x hx
    simp only [buildNodes, Option.some.injEq, Prod.mk.injEq] at h
    rw [← h.2] at hx
    exact Or.inl hx
  | cons c cs ih =>
    intro v ns v2 h x hx
    obtain ⟨t, v1, rest, h1, h2, _⟩ := buildNodes_cons_some build v c cs ns v2 h
    obtain ⟨hcmem, hcp⟩ := hcs c (List.mem_cons_self _ _)
    rcases ih (fun d hd => hcs d (List.mem_cons_of_mem _ hd)) v1 rest v2 h2 x hx with hx1 | hd
    · rcases hb v c t v1 h1 x hx1 with hxv | hxc | ⟨d, hd, hdx⟩
      · exact Or.inl hxv
      · exact Or.inr ⟨c, Descends.child c hcmem hcp, hxc.symm⟩
      · exact Or.inr ⟨d, Descends_of_child processes a c d hcmem hcp hd, hdx⟩
    · exact Or.inr hd

/-- A call of `buildTree` marks nothing but the PID it is called on and PIDs of its
descendants. -/
theorem buildTree_descend (processes : List Process) (idx : Int → List Process)
    (hidx : ∀ x c, c ∈ idx x → c ∈ processes ∧ c.PPID = x) (fuel : Nat) :
    ∀ (v : List Int) (p : Process) (t : ProcessTree) (v2 : List Int),
      buildTree idx fuel v p = some (t, v2) →
      ∀ x ∈ v2, x ∈ v ∨ x = p.PID ∨ ∃ d, Descends processes p.PID d ∧ d.PID = x := by
  induction fuel with
  | zero =>
    intro v p t v2 h x hx
    rcases buildTree_some idx 0 v p t v2 h with ⟨_, _, hv2⟩ | ⟨_, f, ns, hf, _, _⟩
    · rw [hv2] at hx
      exact Or.inl hx
    · omega
  | succ g ih =>
    intro v p t v2 h x hx
    rcases buildTree_some idx (g + 1) v p t v2 h with ⟨_, _, hv2⟩ | ⟨_, f, ns, hf, hn, _⟩
    · rw [hv2] at hx
      exact Or.inl hx
    · have hfg : f = g := by omega
      subst hfg
      rcases buildNodes_descend processes p.PID (buildTree idx f) ih (idx p.PID)
        (fun c hc => hidx p.PID c hc) (p.PID :: v) ns v2 hn x hx with hx1 | hd
      · rcases List.mem_cons.mp hx1 with hxp | hxv
        · exact Or.inr (Or.inl hxp)
        · exact Or.inl hxv
      · exact Or.inr (Or.inr hd)

/-- The children loop adds at most one mark per node it builds, and when it adds exactly
one per node every node carries the whole indexed group of its PID. -/
theorem buildNodes_full (idx : Int → List Process)
    (build : List Int → Process → Option (ProcessTree × List Int))
    (hb : ∀ v c t v2, build v c = some (t, v2) →
      v2.length ≤ v.length + t.nodes.length ∧
      (v2.length = v.length + t.nodes.length →
        ∀ n ∈ t.nodes, n.children.map ProcessTree.proc = idx n.proc.PID))
    (cs : List Process) :
    ∀ (v : List Int) (ns : List ProcessTree) (v2 : List Int),
      buildNodes build v cs = some (ns, v2) →
      v2.length ≤ v.length + (ProcessTree.nodesOfList ns).length ∧
      (v2.length = v.length + (ProcessTree.nodesOfList ns).length →
        ∀ n ∈ ProcessTree.nodesOfList ns, n.children.map ProcessTree.proc = idx n.proc.PID) := by
  induction cs with
  | nil =>
    intro v ns v2 h
    simp only [buildNodes, Option.some.injEq, Prod.mk.injEq] at h
    obtain ⟨rfl, rfl⟩ := h
    simp [ProcessTree.nodesOfList]
  | cons c cs ih =>
    intro v ns v2 h
    obtain ⟨t, v1, rest, h1, h2, rfl⟩ := buildNodes_cons_some build v c cs ns v2 h
    obtain ⟨a1, a2⟩ := hb v c t v1 h1
    obtain ⟨b1, b2⟩ := ih v1 rest v2 h2
    rw [ProcessTree.nodesOfList_cons, List.length_append]
    refine ⟨by omega, ?_⟩
    intro heq n hn
    rcases List.mem_append.mp hn with hn | hn
    · exact a2 (by omega) n hn
    · exact b2 (by omega) n hn

/-- A call of `buildTree` adds at most one mark per node of the tree it builds, and when it
adds exactly one per node every node carries the whole indexed group of its PID. -/
theorem buildTree_full (idx : Int → List Process) (fuel : Nat) :
    ∀ (v : List Int) (p : Process) (t : ProcessTree) (v2 : List Int),
      buildTree idx fuel v p = some (t, v2) →
      v2.length ≤ v.length + t.nodes.length ∧
      (v2.length = v.length + t.nodes.length →
        ∀ n ∈ t.nodes, n.children.map ProcessTree.proc = idx n.proc.PID) := by
  have leaf : ∀ (v : List Int) (p : Process),
      v.length ≤ v.length + (ProcessTree.node p []).nodes.length ∧
      (v.length = v.length + (ProcessTree.node p []).nodes.length →
        ∀ n ∈ (ProcessTree.node p []).nodes,
          n.children.map ProcessTree.proc = idx n.proc.PID) := by
    intro v p
    rw [ProcessTree.nodes_node]
    simp only [ProcessTree.nodesOfList, List.length_singleton]
    exact ⟨by omega, fun h => by omega⟩
  induction fuel with
  | zero =>
    intro v p t v2 h
    rcases buildTree_some idx 0 v p t v2 h with ⟨_, rfl, rfl⟩ | ⟨_, f, ns, hf, _, _⟩
    · exact leaf _ _
    · omega
  | succ g ih =>
    intro v p t v2 h
    rcases buildTree_some idx (g + 1) v p t v2 h with ⟨_, rfl, rfl⟩ | ⟨_, f, ns, hf, hn, rfl⟩
    · exact leaf _ _
    · have hfg : f = g := by omega
      subst hfg
      obtain ⟨b1, b2⟩ := buildNodes_full idx (buildTree idx f) ih (idx p.PID) (p.PID :: v) ns v2 hn
      obtain ⟨hmap, _⟩ := buildNodes_spec idx (buildTree idx f)
        (buildTree_spec idx f) (idx p.PID) (p.PID :: v) ns v2 hn
      rw [ProcessTree.nodes_node]
      simp only [List.length_cons] at b1 b2 ⊢
      refine ⟨by omega, ?_⟩
      intro heq n hmem
      rcases List.mem_cons.mp hmem with rfl | hmem
      · exact hmap
      · exact b2 (by omega) n hmem

/-- When every process of the snapshot has a PPID below its PID, the PID of a descendant of
`a` is above `a`; such a snapshot has no cycle of parent links. -/
theorem Descends_lt (processes : List Process) (hlt : ∀ q ∈ processes, q.PPID < q.PID)
    (a : Int) (p : Process) (h : Descends processes a p) : a < p.PID := by
  induction h with
  | child p hmem hppid =>
    have := hlt p hmem
    omega
  | step m p _ hmem hppid ih =>
    have := hlt p hmem
    omega

/-- C21: for a snapshot with pairwise distinct PIDs whose parent links contain no cycle, and
a root with a positive PID, the tree returned by `ResolveDescendants` holds below its root
node exactly the descendants of the root's PID in the snapshot, each exactly once, and every
node of the tree carries all the snapshot's children of its PID. -/
theorem ResolveDescendants_descendants (processes : List Process) (root : Process)
    (hroot : 0 < root.PID) (hnodup : (processes.map (fun p => p.PID)).Nodup)
    (hacyclic : ∀ p ∈ processes, ¬ Descends processes p.PID p) :
    ∃ t, ResolveDescendants (.ok processes) root = .ok (some t) ∧ t.proc = root ∧
      t.belowProcs.Nodup ∧
      (∀ p, p ∈ t.belowProcs ↔ Descends processes root.PID p) ∧
      ∀ n ∈ t.nodes, n.children.map ProcessTree.proc = sortedIndex processes n.proc.PID := by
  obtain ⟨t, visited, hbuild⟩ := buildTree_root_returns processes root
  have hres := ResolveDescendants_of_buildTree processes root t visited hbuild
  rw [if_neg (by omega)] at hres
  obtain ⟨hproc, _, _, hvnodup, _, _⟩ :=
    buildTree_spec (sortedIndex processes) _ [] root t visited hbuild
  obtain ⟨_, new, hnew, hrootmark, hperm, hclosed⟩ :=
    buildTree_marks (sortedIndex processes) _ [] root t visited hbuild
  rw [List.append_nil] at hnew
  subst hnew
  have hmarks : visited.Nodup := hvnodup List.nodup_nil
  have hdesc := buildTree_descend processes (sortedIndex processes)
    (fun x c hc => sortedIndex_mem processes x c hc) _ [] root t visited hbuild
  have hiff : ∀ p, p ∈ t.belowProcs ↔ Descends processes root.PID p := by
    intro p
    constructor
    · intro hp
      obtain ⟨x, hx, hpx⟩ := List.mem_flatMap.mp (hperm.subset hp)
      obtain ⟨hpmem, hppid⟩ := sortedIndex_mem processes x p hpx
      rcases hdesc x hx with hnil | hxroot | ⟨d, hd, hdx⟩
      · exact absurd hnil (List.not_mem_nil x)
      · exact Descends.child p hpmem (by rw [hppid, hxroot])
      · exact Descends.step d p hd hpmem (by rw [hppid, hdx])
    · intro hd
      apply hperm.symm.subset
      rw [List.mem_flatMap]
      exact ⟨p.PPID, (Descends_marked processes visited root.PID hrootmark hclosed p hd).1,
        sortedIndex_mem_of processes _ p (Descends_mem processes _ p hd) rfl⟩
  have hbelow : (t.belowProcs.map (fun p => p.PID)).Nodup :=
    ((hperm.map _).nodup_iff).mpr (sortedIndex_flatMap_nodup processes visited hnodup hmarks)
  have hrootnot : root.PID ∉ t.belowProcs.map (fun p => p.PID) := by
    intro hmem
    obtain ⟨r, hr, hrpid⟩ := List.mem_map.mp hmem
    have hd := (hiff r).mp hr
    have hrpid2 : r.PID = root.PID := hrpid
    rw [← hrpid2] at hd
    exact hacyclic r (Descends_mem processes _ r hd) hd
  have hsame : visited.Perm (root.PID :: t.belowProcs.map (fun p => p.PID)) := by
    rw [List.perm_ext_iff_of_nodup hmarks (List.nodup_cons.mpr ⟨hrootnot, hbelow⟩)]
    intro x
    constructor
    · intro hx
      rcases hdesc x hx with hnil | hxroot | ⟨d, hd, hdx⟩
      · exact absurd hnil (List.not_mem_nil x)
      · rw [hxroot]
        exact List.mem_cons_self _ _
      · exact List.mem_cons_of_mem _ (List.mem_map.mpr ⟨d, (hiff d).mpr hd, hdx⟩)
    · intro hx
      rcases List.mem_cons.mp hx with hxroot | hxmem
      · rw [hxroot]
        exact hrootmark
      · obtain ⟨p, hp, hpx⟩ := List.mem_map.mp hxmem
        have hpx2 : p.PID = x := hpx
        rw [← hpx2]
        exact (Descends_marked processes visited root.PID hrootmark hclosed p
          ((hiff p).mp hp)).2
  have hlen : visited.length = ([] : List Int).length + t.nodes.length := by
    rw [hsame.length_eq, ProcessTree.nodes_eq]
    simp only [List.length_cons, List.length_map, List.length_nil, ProcessTree.belowProcs]
    omega
  exact ⟨t, hres, hproc, List.Nodup.of_map _ hbelow, hiff,
    (buildTree_full (sortedIndex processes) _ [] root t visited hbuild).2 hlen⟩

/-- Witness of C21: in the sample snapshot the processes 10, 30 and 20 are the descendants of
the root 1; process 40 is none. -/
theorem ResolveDescendants_descendants_witness :
    (∃ t, ResolveDescendants (.ok Sample.treeSnapshot) Sample.treeRoot = .ok (some t) ∧
      t.proc = Sample.treeRoot ∧ t.belowProcs.Nodup ∧
      (∀ p, p ∈ t.belowProcs ↔ Descends Sample.treeSnapshot Sample.treeRoot.PID p) ∧
      ∀ n ∈ t.nodes,
        n.children.map ProcessTree.proc = sortedIndex Sample.treeSnapshot n.proc.PID) ∧
    (match ResolveDescendants (.ok Sample.treeSnapshot) Sample.treeRoot with
      | .ok (some t) => t.belowProcs.map (fun p => p.PID)
      | _ => []) = [10, 30, 20] :=
  ⟨ResolveDescendants_descendants Sample.treeSnapshot Sample.treeRoot (by decide) (by decide)
      (fun p hp hd =>
        absurd (Descends_lt Sample.treeSnapshot (by decide) p.PID p hd) (lt_irrefl _)),
    by decide⟩


/-! ### Lower-casing outside ASCII -/

/-- A command name written with the capital I with dot above is lower-cased to `services.exe`
by a table that maps that rune to `i`, as the table of the Go library does, and then
`detectWindowsService` returns the generic verdict. -/
theorem Windows.detectWindowsService_dotted_capital :
    strings.ToLower Sample.dottedLower "SERVİCES.EXE".toList = "services.exe".toList ∧
    Windows.detectWindowsService Sample.dottedLower Sample.dottedScm =
      .ok (some Windows.genericVerdict) := by
  decide

end Witr
